import Mathlib

/-!
# Verification of the bsexp repository

This file gives a shallow embedding of the `bsexp` Rust crate:

* `src/vli.rs` — the variable-length integer (VLI) codec on `u64`
  (`to_vli_bytes`, `read_vli_bytes`), embedded over `Nat` with explicit
  bit operations;
* `src/serialization.rs` — the pool (BSEFile) format.  In the source the
  encoder core `traverse_helper` and the decoder `from_bsefile` are
  `todo!()` stubs and the writer `write_vli_bytes` is absent, so those
  parts are modelled from the specification (doc comments below say so
  explicitly) while the VLI codec they rely on is the real code;
* `src/lib.rs` — the superseded fixed-width-index format
  (`BSExp::to_bytes` / `BSExp::from_bytes`), embedded with explicit
  32-bit two's-complement arithmetic and an explicit `panic` outcome for
  out-of-bounds slice indexing.

Theorems about each claim of the specification follow the definitions.
-/

/-! ## Expression trees

`BSExp` from `src/lib.rs`; the spec's `Expression` type is the same
value tree (atoms over uninterpreted byte strings and ordered lists). -/

inductive BSExp where
  | Atom (a : List Nat) : BSExp
  | List (l : List BSExp) : BSExp

mutual

/-- Structural equality test on expressions (the derived `PartialEq`). -/
def beqBSExp : BSExp → BSExp → Bool
  | .Atom a, .Atom b => a = b
  | .List l, .List m => beqBSExpList l m
  | _, _ => false

/-- Structural equality test on expression lists. -/
def beqBSExpList : List BSExp → List BSExp → Bool
  | [], [] => true
  | x :: xs, y :: ys => beqBSExp x y && beqBSExpList xs ys
  | _, _ => false

end

theorem beqBSExp_iff : ∀ a b : BSExp, beqBSExp a b = true ↔ a = b := by
  intro a
  induction a using BSExp.rec
    (motive_2 := fun l => ∀ m, beqBSExpList l m = true ↔ l = m) with
  | Atom a => intro b; cases b <;> simp [beqBSExp]
  | List l ih => intro b; cases b <;> simp [beqBSExp, ih]
  | nil => rename_i m; cases m <;> simp [beqBSExpList]
  | cons x xs ihx ihxs =>
      rename_i m; cases m <;> simp [beqBSExpList, beqBSExp, ihx, ihxs]

instance : DecidableEq BSExp := fun a b =>
  decidable_of_iff (beqBSExp a b = true) (beqBSExp_iff a b)

instance {ε α : Type} [DecidableEq ε] [DecidableEq α] : DecidableEq (Except ε α)
  | .ok a, .ok b =>
      if h : a = b then .isTrue (by rw [h])
      else .isFalse (fun c => by cases c; exact h rfl)
  | .error a, .error b =>
      if h : a = b then .isTrue (by rw [h])
      else .isFalse (fun c => by cases c; exact h rfl)
  | .ok _, .error _ => .isFalse (fun c => by cases c)
  | .error _, .ok _ => .isFalse (fun c => by cases c)

/-! ## VLI codec (`src/vli.rs`, real code)

`u64` is embedded as `Nat`; every theorem that needs the `u64` range
carries an explicit `n < 2 ^ 64` hypothesis.  `as u8` casts are the
explicit `% 256`. -/

/-- The `match` computing the byte length in `to_vli_bytes`. -/
def vliLen (n : Nat) : Nat :=
  if n < 1 <<< (1 * 7) then 1
  else if n < 1 <<< (2 * 7) then 2
  else if n < 1 <<< (3 * 7) then 3
  else if n < 1 <<< (4 * 7) then 4
  else if n < 1 <<< (5 * 7) then 5
  else if n < 1 <<< (6 * 7) then 6
  else if n < 1 <<< (7 * 7) then 7
  else if n < 1 <<< (8 * 7) then 8
  else 9

/-- The closure `sec` of `to_vli_bytes`: payload group extraction,
`((self & (m << (n * 7))) >> (n * 7)) as u8`. -/
def vliSec (n m k : Nat) : Nat :=
  ((n &&& (m <<< (k * 7))) >>> (k * 7)) % 256

/-- The closure `msk` of `to_vli_bytes`: the continuation bit. -/
def vliMsk (n k : Nat) : Nat :=
  if vliLen n > k then 128 else 0

/-- `<u64 as VLI>::to_vli_bytes`: the 9-byte scratch array plus the
number of bytes actually used. -/
def to_vli_bytes (n : Nat) : List Nat × Nat :=
  ([vliSec n 127 0 ||| vliMsk n 1,
    vliSec n 127 1 ||| vliMsk n 2,
    vliSec n 127 2 ||| vliMsk n 3,
    vliSec n 127 3 ||| vliMsk n 4,
    vliSec n 127 4 ||| vliMsk n 5,
    vliSec n 127 5 ||| vliMsk n 6,
    vliSec n 127 6 ||| vliMsk n 7,
    vliSec n 127 7 ||| vliMsk n 8,
    vliSec n 255 8],
   vliLen n)

/-- The byte string an encoded value contributes to a buffer:
`&v[0..l]` of `to_vli_bytes`, as in the crate's own test and in
`write_vli_bytes`' contract. -/
def encVli (n : Nat) : List Nat :=
  (to_vli_bytes n).1.take (to_vli_bytes n).2

/-- The `try_fold` loop of `read_vli_bytes`.  `rem` counts the bytes
still allowed out of the leading `take(8)` window, `i` is the
`enumerate` index (`i + rem = 8` at every call), `acc` the accumulator.
When the window is exhausted (`rem = 0`, i.e. all eight bytes had the
continuation bit) one final byte supplies bits 56..63.  The byte source
is a cursor over a `List Nat`; an exhausted cursor yields the reader's
error `err`. -/
def readVliAux {E : Type} (err : E) :
    Nat → Nat → Nat → List Nat → Except E (Nat × List Nat)
  | rem + 1, i, acc, x :: rest =>
      if x &&& 128 ≠ 0 then
        readVliAux err rem (i + 1) (acc ||| ((x &&& 127) <<< (i * 7))) rest
      else
        .ok (acc ||| (x <<< (i * 7)), rest)
  | _ + 1, _, _, [] => .error err
  | 0, _, _, [] => .error err
  | 0, _, acc, y :: rest => .ok (acc ||| ((y &&& 255) <<< 56), rest)

/-- `<u64 as VLI>::read_vli_bytes`, with the reader instantiated at a
list cursor that fails with `err` at end of input. -/
def read_vli_bytes {E : Type} (err : E) (l : List Nat) :
    Except E (Nat × List Nat) :=
  readVliAux err 8 0 0 l

/-! ### Arithmetic bridge lemmas -/

lemma vliLen_eq (n : Nat) : vliLen n =
    if n < 128 then 1 else if n < 16384 then 2 else if n < 2097152 then 3
    else if n < 268435456 then 4 else if n < 34359738368 then 5
    else if n < 4398046511104 then 6 else if n < 562949953421312 then 7
    else if n < 72057594037927936 then 8 else 9 := by
  unfold vliLen
  norm_num [Nat.shiftLeft_eq]

lemma vliLen_pos (n : Nat) : 1 ≤ vliLen n := by
  rw [vliLen_eq]; split_ifs <;> omega

lemma vliLen_le9 (n : Nat) : vliLen n ≤ 9 := by
  rw [vliLen_eq]; split_ifs <;> omega

lemma lt_of_vliLen_le8 (n : Nat) (h : vliLen n ≤ 8) : n < 2 ^ (7 * vliLen n) := by
  rw [vliLen_eq] at *
  split_ifs at * <;> omega

lemma vliLen_eq9 (n : Nat) (h : vliLen n = 9) : 72057594037927936 ≤ n := by
  rw [vliLen_eq] at h
  split_ifs at h <;> omega

lemma and_mask_shiftRight (n t s : Nat) :
    (n &&& ((2 ^ t - 1) <<< s)) >>> s = (n >>> s) % 2 ^ t := by
  apply Nat.eq_of_testBit_eq
  intro j
  simp [Nat.testBit_shiftRight, Nat.testBit_and, Nat.testBit_shiftLeft,
        Nat.testBit_mod_two_pow, Nat.testBit_two_pow_sub_one]
  exact Bool.and_comm _ _

lemma vliSec_127 (n k : Nat) : vliSec n 127 k = n >>> (k * 7) % 128 := by
  have h : (127 : Nat) = 2 ^ 7 - 1 := rfl
  unfold vliSec
  rw [h, and_mask_shiftRight]
  exact Nat.mod_eq_of_lt (lt_of_lt_of_le (Nat.mod_lt _ (by norm_num)) (by norm_num))

lemma vliSec_255 (n : Nat) : vliSec n 255 8 = n >>> 56 % 256 := by
  have h : (255 : Nat) = 2 ^ 8 - 1 := rfl
  unfold vliSec
  rw [h, and_mask_shiftRight]
  norm_num [Nat.mod_mod_of_dvd]

lemma orAdd (a b s : Nat) (h : a < 2 ^ s) : a ||| (b <<< s) = a + b * 2 ^ s := by
  rw [Nat.shiftLeft_eq, Nat.lor_comm, Nat.mul_comm b, ← Nat.mul_add_lt_is_or h]
  omega

lemma accStep (n s : Nat) :
    n % 2 ^ s ||| ((n >>> s % 128) <<< s) = n % 2 ^ (s + 7) := by
  rw [orAdd _ _ _ (Nat.mod_lt _ (Nat.two_pow_pos s)), Nat.shiftRight_eq_div_pow]
  rw [Nat.pow_add]
  rw [Nat.mod_mul]
  ring

lemma finishOr (n s : Nat) : n % 2 ^ s ||| ((n >>> s) <<< s) = n := by
  rw [orAdd _ _ _ (Nat.mod_lt _ (Nat.two_pow_pos s)), Nat.shiftRight_eq_div_pow]
  exact Nat.mod_add_div' n (2 ^ s)

lemma contbit (a : Nat) : (a ||| 128) &&& 128 ≠ 0 := by
  have h : (128 : Nat) = 2 ^ 7 := rfl
  rw [h, Nat.and_two_pow]
  have h2 : (a ||| 2 ^ 7).testBit 7 = true := by
    rw [Nat.testBit_or, Nat.testBit_two_pow_self]
    simp
  rw [h2]
  norm_num

lemma cont127 (a : Nat) (h : a < 128) : (a ||| 128) &&& 127 = a := by
  rw [Nat.and_distrib_right]
  have h1 : (128 : Nat) &&& 127 = 0 := by decide
  have h2 : a &&& 127 = a := by
    have : (127 : Nat) = 2 ^ 7 - 1 := rfl
    rw [this, Nat.and_pow_two_sub_one_of_lt_two_pow h]
  rw [h1, h2, Nat.or_zero]

lemma termbit (a : Nat) (h : a < 128) : a &&& 128 = 0 := by
  have h1 : (128 : Nat) = 2 ^ 7 := rfl
  rw [h1, Nat.and_two_pow, Nat.testBit_lt_two_pow h]
  norm_num

/-- Proof-level view of the used bytes of `to_vli_bytes`: the bytes at
positions `k, k+1, …, vliLen n - 1`. -/
def tailBytes (n k : Nat) : List Nat :=
  if h : k < vliLen n then
    (if k = 8 then vliSec n 255 8 else vliSec n 127 k ||| vliMsk n (k + 1))
      :: tailBytes n (k + 1)
  else []
termination_by vliLen n - k

lemma tailBytes_stop (n k : Nat) (h : ¬ k < vliLen n) : tailBytes n k = [] := by
  rw [tailBytes]
  simp [h]

lemma tailBytes_cons (n k : Nat) (h : k < vliLen n) :
    tailBytes n k =
      (if k = 8 then vliSec n 255 8 else vliSec n 127 k ||| vliMsk n (k + 1))
        :: tailBytes n (k + 1) := by
  conv_lhs => rw [tailBytes]
  simp [h]

lemma encVli_eq_tailBytes (n : Nat) : encVli n = tailBytes n 0 := by
  have h9 := vliLen_le9 n
  have h1 := vliLen_pos n
  unfold encVli to_vli_bytes
  simp only
  interval_cases h : vliLen n <;>
    simp_all [tailBytes_cons, tailBytes_stop, List.take_succ_cons, vliMsk, h]

lemma aux_run {E : Type} (err : E) (n : Nat) (h64 : n < 2 ^ 64) (rest : List Nat) :
    ∀ d k, vliLen n - k = d + 1 → k < vliLen n →
      readVliAux err (8 - k) k (n % 2 ^ (k * 7)) (tailBytes n k ++ rest) =
        .ok (n, rest) := by
  intro d
  induction d with
  | zero =>
      intro k hd hk
      have hstop : tailBytes n (k + 1) = [] := tailBytes_stop n (k + 1) (by omega)
      rw [tailBytes_cons n k hk, hstop]
      by_cases h8 : k = 8
      · -- ninth byte: all eight continuation bytes were consumed before it
        subst h8
        have hL : vliLen n = 9 := by omega
        simp only [if_pos rfl, List.nil_append, List.cons_append]
        have hrem : (8 : Nat) - 8 = 0 := rfl
        rw [hrem]
        show Except.ok (n % 2 ^ (8 * 7) ||| ((vliSec n 255 8 &&& 255) <<< 56), rest) =
          .ok (n, rest)
        have hval : vliSec n 255 8 &&& 255 = n >>> 56 := by
          rw [vliSec_255]
          have h255 : (255 : Nat) = 2 ^ 8 - 1 := rfl
          rw [h255, Nat.and_pow_two_sub_one_eq_mod]
          have hlt : n >>> 56 < 256 := by
            rw [Nat.shiftRight_eq_div_pow]
            omega
          simp [Nat.mod_eq_of_lt hlt]
        rw [hval]
        have h56 : (8 : Nat) * 7 = 56 := rfl
        rw [h56, finishOr]
      · -- terminal byte among the first eight
        have hk8 : k < 8 := by
          have := vliLen_le9 n
          omega
        have hL : vliLen n = k + 1 := by omega
        have hub : n < 2 ^ (7 * (k + 1)) := by
          rw [← hL]
          exact lt_of_vliLen_le8 n (by omega)
        have hlt128 : n >>> (k * 7) < 128 := by
          rw [Nat.shiftRight_eq_div_pow]
          apply Nat.div_lt_of_lt_mul
          calc n < 2 ^ (7 * (k + 1)) := hub
            _ = 2 ^ (k * 7) * 128 := by
                rw [show 7 * (k + 1) = k * 7 + 7 by ring, pow_add]
                norm_num
        have hbyte : vliSec n 127 k = n >>> (k * 7) := by
          rw [vliSec_127]
          exact Nat.mod_eq_of_lt hlt128
        have hmsk : vliMsk n (k + 1) = 0 := by
          unfold vliMsk
          simp [hL]
        rw [if_neg h8, hmsk, Nat.or_zero, hbyte]
        have hshape : (8 : Nat) - k = (8 - (k + 1)) + 1 := by omega
        rw [hshape]
        simp only [List.nil_append, List.cons_append, readVliAux]
        rw [if_neg (by simp [termbit _ hlt128])]
        rw [finishOr]
        simp
  | succ d ih =>
      intro k hd hk
      have hk1 : k + 1 < vliLen n := by omega
      have hk8 : k < 8 := by
        have := vliLen_le9 n
        omega
      rw [tailBytes_cons n k hk]
      have hmsk : vliMsk n (k + 1) = 128 := by
        unfold vliMsk
        simp [hk1, Nat.lt_iff_add_one_le]
      rw [if_neg (by omega : ¬ k = 8), hmsk]
      have hshape : (8 : Nat) - k = (8 - (k + 1)) + 1 := by omega
      rw [hshape]
      simp only [List.cons_append, readVliAux]
      rw [if_pos (contbit _)]
      have hsec : vliSec n 127 k < 128 := by
        rw [vliSec_127]
        exact Nat.mod_lt _ (by norm_num)
      rw [cont127 _ hsec, vliSec_127]
      have hacc : n % 2 ^ (k * 7) ||| (((n >>> (k * 7)) % 128) <<< (k * 7)) =
          n % 2 ^ ((k + 1) * 7) := by
        rw [accStep]
        congr 1
        ring
      rw [hacc]
      exact ih (k + 1) (by omega) hk1

lemma vli_roundtrip {E : Type} (err : E) (n : Nat) (h : n < 2 ^ 64)
    (rest : List Nat) :
    read_vli_bytes err (encVli n ++ rest) = .ok (n, rest) := by
  unfold read_vli_bytes
  rw [encVli_eq_tailBytes]
  have h1 := vliLen_pos n
  have hrun := aux_run err n h rest (vliLen n - 1) 0 (by omega) (by omega)
  simpa [Nat.mod_one] using hrun

lemma allCont_truncated {E : Type} (err : E) :
    ∀ (l : List Nat) (rem i acc : Nat), l.length ≤ rem →
      (∀ b ∈ l, b &&& 128 ≠ 0) → readVliAux err rem i acc l = .error err := by
  intro l
  induction l with
  | nil =>
      intro rem i acc _ _
      rcases rem with _ | r <;> rfl
  | cons x xs ih =>
      intro rem i acc hlen hcont
      rcases rem with _ | r
      · simp at hlen
      · simp only [readVliAux]
        rw [if_pos (hcont x (List.mem_cons_self x xs))]
        exact ih r (i + 1) _ (by simpa using hlen) fun b hb =>
          hcont b (List.mem_cons_of_mem x hb)

lemma tailBytes_take_cont (n : Nat) : ∀ c k, k + c < vliLen n →
    ∀ b ∈ (tailBytes n k).take c, b &&& 128 ≠ 0 := by
  intro c
  induction c with
  | zero => simp
  | succ c ih =>
      intro k hkc b hb
      rw [tailBytes_cons n k (by omega), List.take_succ_cons] at hb
      rcases List.mem_cons.mp hb with hb | hb
      · have hk1 : k + 1 < vliLen n := by omega
        have hk8 : ¬ k = 8 := by
          have := vliLen_le9 n
          omega
        have hmsk : vliMsk n (k + 1) = 128 := by
          unfold vliMsk
          simp [hk1]
        rw [if_neg hk8, hmsk] at hb
        rw [hb]
        exact contbit _
      · exact ih (k + 1) (by omega) b hb

/-- C2: for every `u64` value, decoding the bytes produced by the VLI
encoder yields the original value; in particular each of the boundary
values 0, 127, 128, 16383, 16384, 2^56-1, 2^56 and 2^64-1 round-trips
through `to_vli_bytes` and `read_vli_bytes`. -/
theorem vli_encode_decode_roundtrip {E : Type} (err : E) (n : Nat)
    (h : n < 2 ^ 64) (rest : List Nat) :
    read_vli_bytes err (encVli n ++ rest) = .ok (n, rest) ∧
    (∀ v ∈ [0, 127, 128, 16383, 16384, 2 ^ 56 - 1, 2 ^ 56, 2 ^ 64 - 1],
      read_vli_bytes err (encVli v) = .ok (v, [])) := by
  refine ⟨vli_roundtrip err n h rest, ?_⟩
  have gen : ∀ v : Nat, v < 2 ^ 64 → read_vli_bytes err (encVli v) = .ok (v, []) := by
    intro v hv
    have := vli_roundtrip err v hv []
    simpa using this
  intro v hv
  fin_cases hv <;> exact gen _ (by norm_num)

/-- Witness for C2 at the boundary value `2 ^ 56`. -/
theorem vli_encode_decode_roundtrip_witness :
    (2 ^ 56 < 2 ^ 64) ∧
      read_vli_bytes () (encVli (2 ^ 56) ++ []) = .ok (2 ^ 56, []) :=
  ⟨by norm_num, (vli_encode_decode_roundtrip () (2 ^ 56) (by norm_num) []).1⟩

/-- C3: the encoded length is the minimum required by the value's
magnitude; in the 9-byte case the 9th byte carries the top 8 bits
verbatim; the emitted byte string has exactly that length. -/
theorem vli_length_minimal (n : Nat) (h : n < 2 ^ 64) :
    (to_vli_bytes n).2 =
      (if n < 2 ^ 7 then 1 else if n < 2 ^ 14 then 2 else if n < 2 ^ 21 then 3
       else if n < 2 ^ 28 then 4 else if n < 2 ^ 35 then 5
       else if n < 2 ^ 42 then 6 else if n < 2 ^ 49 then 7
       else if n < 2 ^ 56 then 8 else 9) ∧
    ((to_vli_bytes n).2 = 9 → (to_vli_bytes n).1.getD 8 0 = n >>> 56) ∧
    (encVli n).length = (to_vli_bytes n).2 := by
  refine ⟨?_, ?_, ?_⟩
  · show vliLen n = _
    rw [vliLen_eq]
    norm_num
  · intro _
    show vliSec n 255 8 = n >>> 56
    rw [vliSec_255]
    apply Nat.mod_eq_of_lt
    rw [Nat.shiftRight_eq_div_pow]
    omega
  · show ((to_vli_bytes n).1.take (vliLen n)).length = vliLen n
    rw [List.length_take]
    have h9 : vliLen n ≤ 9 := vliLen_le9 n
    have : (to_vli_bytes n).1.length = 9 := rfl
    omega

/-- Witness for C3 at `n = 2 ^ 56`. -/
theorem vli_length_minimal_witness :
    (2 ^ 56 < 2 ^ 64) ∧ (to_vli_bytes (2 ^ 56)).2 = 9 ∧
      (to_vli_bytes (2 ^ 56)).1.getD 8 0 = 2 ^ 56 >>> 56 :=
  ⟨by norm_num, by decide,
    (vli_length_minimal (2 ^ 56) (by norm_num)).2.1 (by decide)⟩

/-- C4: a byte source that ends before a terminating VLI byte — at most
eight bytes, all with the continuation bit set; in particular any strict
prefix of a valid encoding — makes `read_vli_bytes` fail with the
error supplied by the reader. -/
theorem vli_truncated_input {E : Type} (err : E) :
    (∀ l : List Nat, l.length ≤ 8 → (∀ b ∈ l, b &&& 128 ≠ 0) →
        read_vli_bytes err l = .error err) ∧
    (∀ n : Nat, n < 2 ^ 64 → ∀ k, k < (to_vli_bytes n).2 →
        read_vli_bytes err ((encVli n).take k) = .error err) := by
  constructor
  · intro l hlen hcont
    exact allCont_truncated err l 8 0 0 hlen hcont
  · intro n _ k hk
    have hk' : k < vliLen n := hk
    have h9 := vliLen_le9 n
    apply allCont_truncated err _ 8 0 0
    · calc ((encVli n).take k).length ≤ k := List.length_take_le ..
        _ ≤ 8 := by omega
    · rw [encVli_eq_tailBytes]
      exact tailBytes_take_cont n k 0 (by omega)

/-- Witness for C4: the all-continuation source `[255]` and the
1-byte strict prefix of the 2-byte encoding of 300. -/
theorem vli_truncated_input_witness :
    read_vli_bytes () [255] = .error () ∧
      read_vli_bytes () ((encVli 300).take 1) = .error () :=
  ⟨(vli_truncated_input ()).1 [255] (by decide) (by decide),
    (vli_truncated_input ()).2 300 (by norm_num) 1 (by decide)⟩

/-! ## Superseded fixed-width format (`src/lib.rs`, real code)

`Idx = i32` is embedded as `Int` with explicit two's-complement wrapping;
`usize` casts are explicit; a Rust panic (out-of-range slice index) is the
explicit outcome `RErr.panic`, distinct from the `Result::Err(String)`
channel `RErr.rerr`. -/

/-- `usize as Idx` / `len() as Idx`: two's-complement wrap into i32. -/
def toI32 (n : Nat) : Int :=
  if n % 4294967296 < 2147483648 then ((n % 4294967296 : Nat) : Int)
  else ((n % 4294967296 : Nat) : Int) - 4294967296

/-- Rust `!i` on an `i32`: bitwise complement. -/
def inot (i : Int) : Int := -i - 1

/-- `i32::to_le_bytes`. -/
def i32leBytes (i : Int) : List Nat :=
  [(i % 4294967296).toNat % 256,
   (i % 4294967296).toNat / 256 % 256,
   (i % 4294967296).toNat / 65536 % 256,
   (i % 4294967296).toNat / 16777216 % 256]

/-- `i32::from_le_bytes` (bytes are `u8`, hence the `% 256`). -/
def fromI32le (b0 b1 b2 b3 : Nat) : Int :=
  toI32 (b0 % 256 + 256 * (b1 % 256) + 65536 * (b2 % 256) +
    16777216 * (b3 % 256))

/-- `i32 as usize` on a 64-bit target: sign extension, reinterpreted. -/
def usizeOfI32 (i : Int) : Nat := (i % 18446744073709551616).toNat

/-- `HashMap::get` on the symbol table (keys are unique, so any lookup
order agrees; this one returns the first match). -/
def lookupTb (a : List Nat) : List (List Nat × Int) → Option Int
  | [] => none
  | (k, v) :: rest => if k = a then some v else lookupTb a rest

mutual

/-- `BSExp::serialize`: threads the symbol table, constant pool and node
pool exactly as the Rust method does. -/
def serialize : BSExp → List (List Nat × Int) → List Nat → List Int →
    List (List Nat × Int) × List Nat × List Int
  | .Atom a, tb, cp, np =>
      match lookupTb a tb with
      | some index => (tb, cp, np ++ [inot index])
      | none =>
          (tb ++ [(a, toI32 cp.length)],
           cp ++ i32leBytes (toI32 a.length) ++ a,
           np ++ [inot (toI32 cp.length)])
  | .List l, tb, cp, np => serializeList l tb cp (np ++ [toI32 l.length])

/-- The `for item in l { item.serialize(...) }` loop. -/
def serializeList : List BSExp → List (List Nat × Int) → List Nat →
    List Int → List (List Nat × Int) × List Nat × List Int
  | [], tb, cp, np => (tb, cp, np)
  | x :: xs, tb, cp, np =>
      match serialize x tb cp np with
      | (tb1, cp1, np1) => serializeList xs tb1 cp1 np1

end

/-- The node pool flattened to little-endian bytes
(`node_pool.into_iter().map(|idx| idx.to_le_bytes()).flatten()`). -/
def npBytes : List Int → List Nat
  | [] => []
  | i :: rest => i32leBytes i ++ npBytes rest

/-- `BSExp::to_bytes`. -/
def to_bytes (e : BSExp) : List Nat :=
  match serialize e [] [] [] with
  | (_, cp, np) =>
      i32leBytes (toI32 cp.length) ++ i32leBytes (toI32 np.length) ++
        cp ++ npBytes np

/-- `read_idx`: pulls four bytes off the cursor or fails. -/
def read_idx : List Nat → Except String (Int × List Nat)
  | b0 :: b1 :: b2 :: b3 :: rest => .ok (fromI32le b0 b1 b2 b3, rest)
  | _ => .error "Not enough bytes to read."

/-- The lazy stream `repeat_with(|| read_idx(&mut cursor)).take(n)`,
materialised: after a failed read the cursor is exhausted, so every
later read fails the same way. -/
def mkIdxList : Nat → List Nat → List (Except String Int)
  | 0, _ => []
  | n + 1, l =>
      match read_idx l with
      | .ok (i, r) => .ok i :: mkIdxList n r
      | .error s => .error s :: mkIdxList n []

/-- Outcomes of `from_bytes`: a value, `Err(message)`, or a Rust panic
(reachable through the unchecked constant-pool slice indexing). -/
inductive RErr where
  | panic : RErr
  | rerr (s : String) : RErr
deriving DecidableEq

mutual

/-- `BSExp::deserialize`, over the materialised index stream.  `fuel`
only bounds the nesting the Rust recursion performs freely; every
recursive call consumes one unit, and `from_bytes` supplies enough fuel
that the bound is never hit (`2 * length + 1` suffices, as proved
below). -/
def dsF : Nat → List (Except String Int) → List Nat →
    Except RErr (BSExp × List (Except String Int))
  | _, [], _ => .error (.rerr "Invalid index encountered during deserialization.")
  | fuel, item :: rest, cp =>
      match item with
      | .error _ =>
          .error (.rerr "Invalid index encountered during deserialization.")
      | .ok i =>
          if i = 0 then .ok (.List [], rest)
          else if i < 0 then
            let j := (inot i).toNat
            if j + 4 ≤ cp.length then
              let len := fromI32le (cp.getD j 0) (cp.getD (j + 1) 0)
                  (cp.getD (j + 2) 0) (cp.getD (j + 3) 0)
              if j + 4 + usizeOfI32 len ≤ cp.length then
                .ok (.Atom ((cp.drop (j + 4)).take (usizeOfI32 len)), rest)
              else .error .panic
            else .error .panic
          else
            match fuel with
            | 0 => .error .panic
            | f + 1 =>
                match dsManyF f (usizeOfI32 i) rest cp with
                | .ok (cs, r) => .ok (.List cs, r)
                | .error er => .error er

/-- The `repeat_with(...).take(idx).collect::<Result<Vec<_>, _>>()`
loop: `k` children, short-circuiting on the first error. -/
def dsManyF : Nat → Nat → List (Except String Int) → List Nat →
    Except RErr (List BSExp × List (Except String Int))
  | _, 0, l, _ => .ok ([], l)
  | fuel, k + 1, l, cp =>
      match fuel with
      | 0 => .error .panic
      | f + 1 =>
          match dsF f l cp with
          | .ok (e, r) =>
              match dsManyF f k r cp with
              | .ok (cs, r2) => .ok (e :: cs, r2)
              | .error er => .error er
          | .error er => .error er

end

/-- `BSExp::from_bytes`. -/
def from_bytes (bytes : List Nat) : Except RErr BSExp :=
  match read_idx bytes with
  | .error s => .error (.rerr s)
  | .ok (i1, r1) =>
      match read_idx r1 with
      | .error s => .error (.rerr s)
      | .ok (i2, r2) =>
          let cp := r2.take (usizeOfI32 i1)
          let idxs := mkIdxList (usizeOfI32 i2) (r2.drop (usizeOfI32 i1))
          match dsF (2 * idxs.length + 1) idxs cp with
          | .ok (e, _) => .ok e
          | .error er => .error er


/-! ### i32 arithmetic lemmas -/

lemma toI32_small (n : Nat) (h : n < 2147483648) : toI32 n = (n : Int) := by
  unfold toI32
  rw [Nat.mod_eq_of_lt (by omega)]
  simp [h]

lemma toI32_lb (n : Nat) : -2147483648 ≤ toI32 n := by
  unfold toI32
  split_ifs <;> omega

lemma toI32_ub (n : Nat) : toI32 n < 2147483648 := by
  unfold toI32
  split_ifs with h
  · omega
  · have := Nat.mod_lt n (y := 4294967296) (by norm_num)
    omega

lemma usizeOfI32_of_nat (n : Nat) (h : n < 2147483648) :
    usizeOfI32 (n : Int) = n := by
  unfold usizeOfI32
  rw [Int.emod_eq_of_lt (by omega) (by omega)]
  simp

lemma usize_toI32 (n : Nat) (h : n < 2147483648) : usizeOfI32 (toI32 n) = n := by
  rw [toI32_small n h, usizeOfI32_of_nat n h]

lemma inot_inot (i : Int) : inot (inot i) = i := by
  unfold inot
  ring

lemma inot_nat_neg (j : Nat) : inot (j : Int) < 0 := by
  unfold inot
  omega

lemma fromI32le_i32leBytes (i : Int) (h1 : -2147483648 ≤ i)
    (h2 : i < 2147483648) :
    fromI32le ((i % 4294967296).toNat % 256)
      ((i % 4294967296).toNat / 256 % 256)
      ((i % 4294967296).toNat / 65536 % 256)
      ((i % 4294967296).toNat / 16777216 % 256) = i := by
  unfold fromI32le
  have hm : (0 : Int) ≤ i % 4294967296 := Int.emod_nonneg i (by norm_num)
  have hm2 : i % 4294967296 < 4294967296 := Int.emod_lt_of_pos i (by norm_num)
  set m := (i % 4294967296).toNat with hmdef
  have hmlt : m < 4294967296 := by omega
  have hsum : m % 256 % 256 + 256 * (m / 256 % 256 % 256) +
      65536 * (m / 65536 % 256 % 256) + 16777216 * (m / 16777216 % 256 % 256) = m := by
    omega
  rw [hsum]
  unfold toI32
  have hcase : i % 4294967296 = if 0 ≤ i then i else i + 4294967296 := by
    split_ifs with hs
    · exact Int.emod_eq_of_lt hs (by omega)
    · omega
  split_ifs with hc <;> omega

lemma read_idx_round (i : Int) (h1 : -2147483648 ≤ i) (h2 : i < 2147483648)
    (rest : List Nat) :
    read_idx (i32leBytes i ++ rest) = .ok (i, rest) := by
  show read_idx ((i % 4294967296).toNat % 256 :: (i % 4294967296).toNat / 256 % 256 ::
    (i % 4294967296).toNat / 65536 % 256 :: (i % 4294967296).toNat / 16777216 % 256 :: rest) = _
  simp only [read_idx]
  rw [fromI32le_i32leBytes i h1 h2]

/-! ### Slice lemmas -/

lemma slice_stable (cp t : List Nat) (j k : Nat) (h : j + k ≤ cp.length) :
    ((cp ++ t).drop j).take k = (cp.drop j).take k := by
  rw [List.drop_append_of_le_length (by omega)]
  rw [List.take_append_of_le_length (by simp; omega)]

lemma getD_slice (cp : List Nat) (j t : Nat) (xs : List Nat)
    (hlen : t < xs.length) (_hb : j + xs.length ≤ cp.length)
    (h : (cp.drop j).take xs.length = xs) :
    cp.getD (j + t) 0 = xs.getD t 0 := by
  rw [List.getD_eq_getElem?_getD, List.getD_eq_getElem?_getD, ← h,
    List.getElem?_take_of_lt hlen, List.getElem?_drop]

lemma npBytes_cons (i : Int) (rest : List Int) :
    npBytes (i :: rest) = i32leBytes i ++ npBytes rest := rfl

lemma mkIdxList_round (np : List Int)
    (h : ∀ i ∈ np, -2147483648 ≤ i ∧ i < 2147483648) :
    mkIdxList np.length (npBytes np) = np.map .ok := by
  induction np with
  | nil => rfl
  | cons i rest ih =>
      rw [npBytes_cons, List.length_cons]
      show mkIdxList (rest.length + 1) (i32leBytes i ++ npBytes rest) = _
      rw [mkIdxList]
      rw [read_idx_round i (h i (by simp)).1 (h i (by simp)).2]
      simp only []
      rw [ih fun x hx => h x (by simp [hx])]
      rfl

/-! ### Serializer invariants (proof-level) -/

/-- A symbol-table entry `(bytes, index)` correctly describes a
constant-pool record at offset `index`. -/
def EntryOk (cpF : List Nat) (p : List Nat × Int) : Prop :=
  ∃ j : Nat, p.2 = (j : Int) ∧ p.1.length < 2147483648 ∧
    j + 4 + p.1.length ≤ cpF.length ∧
    (cpF.drop j).take 4 = i32leBytes (toI32 p.1.length) ∧
    (cpF.drop (j + 4)).take p.1.length = p.1

def TbInv (cpF : List Nat) (tb : List (List Nat × Int)) : Prop :=
  ∀ p ∈ tb, EntryOk cpF p

lemma i32leBytes_length (i : Int) : (i32leBytes i).length = 4 := rfl

lemma EntryOk_mono (cp t : List Nat) (p : List Nat × Int) (h : EntryOk cp p) :
    EntryOk (cp ++ t) p := by
  obtain ⟨j, h1, h2, h3, h4, h5⟩ := h
  refine ⟨j, h1, h2, by simp; omega, ?_, ?_⟩
  · rw [slice_stable cp t j 4 (by omega)]
    exact h4
  · rw [slice_stable cp t (j + 4) p.1.length (by omega)]
    exact h5

lemma TbInv_mono (cp t : List Nat) (tb : List (List Nat × Int))
    (h : TbInv cp tb) : TbInv (cp ++ t) tb :=
  fun p hp => EntryOk_mono cp t p (h p hp)

lemma lookupTb_mem (a : List Nat) (i : Int) :
    ∀ tb : List (List Nat × Int), lookupTb a tb = some i → (a, i) ∈ tb := by
  intro tb
  induction tb with
  | nil => intro h; cases h
  | cons p rest ih =>
      intro h
      match p, h with
      | (k, v), h =>
        by_cases hk : k = a
        · simp [lookupTb, hk] at h
          simp [hk, h]
        · simp [lookupTb, hk] at h
          exact List.mem_cons_of_mem _ (ih h)

lemma dsF_atom (fuel : Nat) (cpF : List Nat) (a : List Nat) (j : Nat)
    (restI : List (Except String Int))
    (hj : j + 4 + a.length ≤ cpF.length) (halen : a.length < 2147483648)
    (hslice4 : (cpF.drop j).take 4 = i32leBytes (toI32 a.length))
    (hsliceA : (cpF.drop (j + 4)).take a.length = a) :
    dsF fuel (.ok (inot (j : Int)) :: restI) cpF = .ok (.Atom a, restI) := by
  have hne : inot (j : Int) ≠ 0 := by unfold inot; omega
  have hneg : inot (j : Int) < 0 := inot_nat_neg j
  have hjj : (inot (inot (j : Int))).toNat = j := by rw [inot_inot]; simp
  have hlen4 : ((i32leBytes (toI32 a.length))).length = 4 := rfl
  have hb0 : cpF.getD (j + 0) 0 = (i32leBytes (toI32 a.length)).getD 0 0 :=
    getD_slice cpF j 0 _ (by rw [hlen4]; omega) (by rw [hlen4]; omega) (by rw [hlen4]; exact hslice4)
  have hb1 : cpF.getD (j + 1) 0 = (i32leBytes (toI32 a.length)).getD 1 0 :=
    getD_slice cpF j 1 _ (by rw [hlen4]; omega) (by rw [hlen4]; omega) (by rw [hlen4]; exact hslice4)
  have hb2 : cpF.getD (j + 2) 0 = (i32leBytes (toI32 a.length)).getD 2 0 :=
    getD_slice cpF j 2 _ (by rw [hlen4]; omega) (by rw [hlen4]; omega) (by rw [hlen4]; exact hslice4)
  have hb3 : cpF.getD (j + 3) 0 = (i32leBytes (toI32 a.length)).getD 3 0 :=
    getD_slice cpF j 3 _ (by rw [hlen4]; omega) (by rw [hlen4]; omega) (by rw [hlen4]; exact hslice4)
  have hfrom : fromI32le (cpF.getD (j + 0) 0) (cpF.getD (j + 1) 0)
      (cpF.getD (j + 2) 0) (cpF.getD (j + 3) 0) = toI32 a.length := by
    rw [hb0, hb1, hb2, hb3]
    show fromI32le _ _ _ _ = _
    exact fromI32le_i32leBytes (toI32 a.length) (toI32_lb _) (toI32_ub _)
  have husize : usizeOfI32 (toI32 a.length) = a.length := usize_toI32 _ halen
  cases fuel with
  | zero =>
      simp only [dsF, if_neg hne, if_pos hneg, hjj]
      rw [if_pos (by omega)]
      rw [show (j : Nat) + 0 = j from rfl] at hfrom
      rw [hfrom, husize]
      rw [if_pos (by omega), hsliceA]
  | succ f =>
      simp only [dsF, if_neg hne, if_pos hneg, hjj]
      rw [if_pos (by omega)]
      rw [show (j : Nat) + 0 = j from rfl] at hfrom
      rw [hfrom, husize]
      rw [if_pos (by omega), hsliceA]

/-- Induction statement for `serialize` on one expression. -/
def SerOk (e : BSExp) : Prop :=
  ∀ tb cp np tb1 cp1 np1, serialize e tb cp np = (tb1, cp1, np1) →
    (∃ ct, cp1 = cp ++ ct) ∧ (∃ tt, tb1 = tb ++ tt) ∧
    ∃ dn, np1 = np ++ dn ∧ 1 ≤ dn.length ∧
      (cp1.length < 2147483648 → np1.length < 2147483648 → TbInv cp tb →
        TbInv cp1 tb1 ∧
        (∀ x ∈ dn, (∃ nn : Nat, x = toI32 nn) ∨
            ∃ j : Nat, x = inot (j : Int) ∧ j + 4 ≤ cp1.length) ∧
        ∀ cpF restI fuel, (∃ t, cpF = cp1 ++ t) →
          fuel ≥ 2 * (dn.length + restI.length) + 1 →
          dsF fuel (dn.map .ok ++ restI) cpF = .ok (e, restI))

/-- Induction statement for `serializeList` on a list of expressions. -/
def SerListOk (l : List BSExp) : Prop :=
  ∀ tb cp np tb1 cp1 np1, serializeList l tb cp np = (tb1, cp1, np1) →
    (∃ ct, cp1 = cp ++ ct) ∧ (∃ tt, tb1 = tb ++ tt) ∧
    ∃ dn, np1 = np ++ dn ∧ l.length ≤ dn.length ∧
      (cp1.length < 2147483648 → np1.length < 2147483648 → TbInv cp tb →
        TbInv cp1 tb1 ∧
        (∀ x ∈ dn, (∃ nn : Nat, x = toI32 nn) ∨
            ∃ j : Nat, x = inot (j : Int) ∧ j + 4 ≤ cp1.length) ∧
        ∀ cpF restI fuel, (∃ t, cpF = cp1 ++ t) →
          fuel ≥ 2 * (dn.length + restI.length) + 2 →
          dsManyF fuel l.length (dn.map .ok ++ restI) cpF = .ok (l, restI))

lemma serListOk_nil : SerListOk [] := by
  intro tb cp np tb1 cp1 np1 heq
  have h : tb1 = tb ∧ cp1 = cp ∧ np1 = np := by
    simpa [serializeList] using heq.symm
  obtain ⟨rfl, rfl, rfl⟩ := h
  refine ⟨⟨[], by simp⟩, ⟨[], by simp⟩, [], by simp, by simp, ?_⟩
  intro _ _ htb
  refine ⟨htb, by simp, ?_⟩
  intro cpF restI fuel _ _
  simp [dsManyF]

lemma serOk_atom (a : List Nat) : SerOk (.Atom a) := by
  intro tb cp np tb1 cp1 np1 heq
  rw [serialize] at heq
  cases hl : lookupTb a tb with
  | some i =>
      rw [hl] at heq
      simp only [Prod.mk.injEq] at heq
      obtain ⟨rfl, rfl, rfl⟩ := heq
      refine ⟨⟨[], by simp⟩, ⟨[], by simp⟩, [inot i], rfl, by simp, ?_⟩
      intro hcp hnp htb
      refine ⟨htb, ?_, ?_⟩
      · intro x hx
        obtain ⟨j, hj, _, hb, _, _⟩ := htb (a, i) (lookupTb_mem a i tb hl)
        have hj' : i = (j : Int) := hj
        have hb' : j + 4 + a.length ≤ cp.length := hb
        simp at hx
        right
        exact ⟨j, by rw [hx, hj'], by omega⟩
      · intro cpF restI fuel hext hfuel
        obtain ⟨t, rfl⟩ := hext
        obtain ⟨j, hj, hlen, hb, hs4, hsA⟩ := htb (a, i) (lookupTb_mem a i tb hl)
        have hj' : i = (j : Int) := hj
        have hlen' : a.length < 2147483648 := hlen
        have hb' : j + 4 + a.length ≤ cp.length := hb
        have hs4' : (cp.drop j).take 4 = i32leBytes (toI32 a.length) := hs4
        have hsA' : (cp.drop (j + 4)).take a.length = a := hsA
        simp only [List.map_cons, List.map_nil, List.cons_append, List.nil_append]
        rw [hj']
        exact dsF_atom fuel (cp ++ t) a j restI (by simp; omega) hlen'
          (by rw [slice_stable cp t j 4 (by omega)]; exact hs4')
          (by rw [slice_stable cp t (j + 4) a.length (by omega)]; exact hsA')
  | none =>
      rw [hl] at heq
      simp only [Prod.mk.injEq] at heq
      obtain ⟨rfl, rfl, rfl⟩ := heq
      refine ⟨⟨i32leBytes (toI32 a.length) ++ a, by simp⟩, ⟨[(a, toI32 cp.length)], rfl⟩,
        [inot (toI32 cp.length)], rfl, by simp, ?_⟩
      intro hcp hnp htb
      have hcpl : cp.length + 4 + a.length < 2147483648 := by
        have h0 := hcp
        simp [i32leBytes_length] at h0
        omega
      have hsmall : toI32 cp.length = (cp.length : Int) := toI32_small _ (by omega)
      have hnew : EntryOk (cp ++ i32leBytes (toI32 a.length) ++ a)
          (a, toI32 cp.length) := by
        refine ⟨cp.length, hsmall, ?_, ?_, ?_, ?_⟩
        · show a.length < 2147483648
          omega
        · show cp.length + 4 + a.length ≤ (cp ++ i32leBytes (toI32 a.length) ++ a).length
          simp [i32leBytes_length]
          omega
        · rw [List.append_assoc, List.drop_left]
          rw [List.take_append_of_le_length (by simp [i32leBytes_length])]
          simp [i32leBytes_length]
        · rw [List.append_assoc]
          rw [show cp.length + 4 = (cp ++ i32leBytes (toI32 a.length)).length from
            by simp [i32leBytes_length]]
          rw [← List.append_assoc, List.drop_left]
          exact List.take_length ..
      refine ⟨?_, ?_, ?_⟩
      · intro p hp
        rcases List.mem_append.mp hp with hp | hp
        · have := htb p hp
          rw [List.append_assoc]
          exact EntryOk_mono cp _ p this
        · simp at hp
          rw [hp]
          exact hnew
      · intro x hx
        simp at hx
        right
        refine ⟨cp.length, by rw [hx, hsmall], ?_⟩
        simp [i32leBytes_length]
      · intro cpF restI fuel hext hfuel
        obtain ⟨t, rfl⟩ := hext
        obtain ⟨j, hj, hlen, hb, hs4, hsA⟩ := EntryOk_mono _ t _ hnew
        simp only [List.map_cons, List.map_nil, List.cons_append, List.nil_append]
        have hji : inot (toI32 cp.length) = inot (j : Int) := by
          simp only at hj
          rw [hj]
        rw [hji]
        exact dsF_atom fuel _ a j restI (by simpa using hb) hlen hs4 hsA

lemma serListOk_cons (x : BSExp) (xs : List BSExp) (ihx : SerOk x)
    (ihxs : SerListOk xs) : SerListOk (x :: xs) := by
  intro tb cp np tb1 cp1 np1 heq
  rw [serializeList] at heq
  rcases hx : serialize x tb cp np with ⟨tbm, cpm, npm⟩
  rw [hx] at heq
  simp only [] at heq
  obtain ⟨⟨ct1, hct1⟩, ⟨tt1, htt1⟩, d1, hd1, hd1len, hsem1⟩ :=
    ihx tb cp np tbm cpm npm hx
  obtain ⟨⟨ct2, hct2⟩, ⟨tt2, htt2⟩, d2, hd2, hd2len, hsem2⟩ :=
    ihxs tbm cpm npm tb1 cp1 np1 heq
  refine ⟨⟨ct1 ++ ct2, by rw [hct2, hct1, List.append_assoc]⟩,
    ⟨tt1 ++ tt2, by rw [htt2, htt1, List.append_assoc]⟩,
    d1 ++ d2, by rw [hd2, hd1, List.append_assoc], by simp; omega, ?_⟩
  intro hcp hnp htb
  have hcpm : cpm.length < 2147483648 := by
    rw [hct2] at hcp
    simp at hcp
    omega
  have hnpm : npm.length < 2147483648 := by
    rw [hd2] at hnp
    simp at hnp
    omega
  obtain ⟨htbm, hrange1, hdec1⟩ := hsem1 hcpm hnpm htb
  obtain ⟨htb1, hrange2, hdec2⟩ := hsem2 hcp hnp htbm
  refine ⟨htb1, ?_, ?_⟩
  · intro z hz
    rcases List.mem_append.mp hz with hz | hz
    · rcases hrange1 z hz with hc | ⟨j, hj, hjb⟩
      · exact .inl hc
      · refine .inr ⟨j, hj, ?_⟩
        rw [hct2]
        simp
        omega
    · exact hrange2 z hz
  · intro cpF restI fuel hext hfuel
    obtain ⟨t, rfl⟩ := hext
    have hsplit : (d1 ++ d2).map (Except.ok : Int → Except String Int) ++ restI =
        d1.map (Except.ok : Int → Except String Int) ++
          (d2.map (Except.ok : Int → Except String Int) ++ restI) := by
      simp [List.map_append]
    rcases fuel with _ | f
    · exfalso
      omega
    · have e1 : dsF f (d1.map (Except.ok : Int → Except String Int) ++
            (d2.map (Except.ok : Int → Except String Int) ++ restI)) (cp1 ++ t) =
          .ok (x, d2.map (Except.ok : Int → Except String Int) ++ restI) := by
        apply hdec1 (cp1 ++ t) (d2.map (Except.ok : Int → Except String Int) ++ restI) f
          ⟨ct2 ++ t, by rw [hct2, List.append_assoc]⟩
        simp only [List.length_append, List.length_map] at hfuel ⊢
        omega
      have e2 : dsManyF f xs.length
            (d2.map (Except.ok : Int → Except String Int) ++ restI) (cp1 ++ t) =
          .ok (xs, restI) := by
        apply hdec2 (cp1 ++ t) restI f ⟨t, rfl⟩
        simp only [List.length_append, List.length_map] at hfuel ⊢
        omega
      show dsManyF (f + 1) (x :: xs).length
          ((d1 ++ d2).map (Except.ok : Int → Except String Int) ++ restI)
          (cp1 ++ t) = .ok (x :: xs, restI)
      rw [hsplit, List.length_cons, dsManyF]
      simp only [e1, e2]

lemma serOk_list (l : List BSExp) (ih : SerListOk l) : SerOk (.List l) := by
  intro tb cp np tb1 cp1 np1 heq
  rw [serialize] at heq
  obtain ⟨⟨ct, hct⟩, ⟨tt, htt⟩, dl, hdl, hdllen, hsem⟩ :=
    ih tb cp (np ++ [toI32 l.length]) tb1 cp1 np1 heq
  refine ⟨⟨ct, hct⟩, ⟨tt, htt⟩, toI32 l.length :: dl,
    by rw [hdl, List.append_assoc]; rfl, by simp, ?_⟩
  intro hcp hnp htb
  obtain ⟨htb1, hrange, hdec⟩ := hsem hcp hnp htb
  have hllen : l.length < 2147483648 := by
    rw [hdl] at hnp
    simp at hnp
    omega
  have hsmall : toI32 l.length = (l.length : Int) := toI32_small _ hllen
  refine ⟨htb1, ?_, ?_⟩
  · intro z hz
    rcases List.mem_cons.mp hz with hz | hz
    · exact .inl ⟨l.length, hz⟩
    · exact hrange z hz
  · intro cpF restI fuel hext hfuel
    cases l with
    | nil =>
        have h0 := hdec cpF restI (2 * (dl.length + restI.length) + 2) hext
          (le_refl _)
        have h0' : (Except.ok ([], dl.map (Except.ok : Int → Except String Int)
              ++ restI) : Except RErr (List BSExp × List (Except String Int))) =
            .ok ([], restI) := by
          rw [← h0]
          rfl
        have hLR : dl.map (Except.ok : Int → Except String Int) ++ restI =
            restI := by
          injection h0' with h1
          injection h1 with h2 h3
        have hdlnil : dl = [] := by
          have hlen := congrArg List.length hLR
          simp only [List.length_append, List.length_map] at hlen
          exact List.eq_nil_of_length_eq_zero (by omega)
        subst hdlnil
        show dsF fuel (.ok (toI32 0) :: restI) cpF = .ok (.List [], restI)
        have ht0 : toI32 0 = 0 := rfl
        rw [ht0]
        cases fuel <;> simp [dsF]
    | cons y ys =>
        rcases fuel with _ | f
        · exfalso
          omega
        · have husz : usizeOfI32 (toI32 (y :: ys).length) = ys.length + 1 := by
            rw [usize_toI32 _ hllen]
            rfl
          have hne : toI32 (y :: ys).length ≠ 0 := by
            rw [hsmall]
            simp only [List.length_cons]
            omega
          have hnneg : ¬ toI32 (y :: ys).length < 0 := by
            rw [hsmall]
            simp only [List.length_cons]
            omega
          have e2 : dsManyF f (y :: ys).length
              (dl.map (Except.ok : Int → Except String Int) ++ restI) cpF =
              .ok (y :: ys, restI) := by
            apply hdec cpF restI f hext
            simp only [List.length_cons] at hfuel ⊢
            omega
          show dsF (f + 1) (.ok (toI32 (y :: ys).length) ::
              (dl.map (Except.ok : Int → Except String Int) ++ restI)) cpF =
            .ok (.List (y :: ys), restI)
          rw [dsF]
          simp only [if_neg hne, if_neg hnneg, husz]
          rw [show ys.length + 1 = (y :: ys).length from rfl]
          simp only [e2]

mutual

theorem serOk_all : ∀ e : BSExp, SerOk e
  | .Atom a => serOk_atom a
  | .List l => serOk_list l (serListOk_all l)

theorem serListOk_all : ∀ l : List BSExp, SerListOk l
  | [] => serListOk_nil
  | x :: xs => serListOk_cons x xs (serOk_all x) (serListOk_all xs)

end

lemma roundtrip_bounded (e : BSExp) (tb : List (List Nat × Int))
    (cp : List Nat) (np : List Int)
    (hser : serialize e [] [] [] = (tb, cp, np))
    (hcp : cp.length < 2147483648) (hnp : np.length < 2147483648) :
    from_bytes (to_bytes e) = .ok e := by
  obtain ⟨⟨ct, hct⟩, ⟨tt, htt⟩, dn, hdn, hdnlen, hsem⟩ :=
    serOk_all e [] [] [] tb cp np hser
  have hdn' : np = dn := by simpa using hdn
  subst hdn'
  obtain ⟨htb, hrange, hdec⟩ := hsem hcp hnp (fun p hp => absurd hp (by simp))
  have hbuf : to_bytes e = i32leBytes (toI32 cp.length) ++
      (i32leBytes (toI32 np.length) ++ (cp ++ npBytes np)) := by
    rw [to_bytes, hser]
    exact rfl
  have hrng : ∀ i ∈ np, -2147483648 ≤ i ∧ i < 2147483648 := by
    intro i hi
    rcases hrange i hi with ⟨nn, rfl⟩ | ⟨j, rfl, hj⟩
    · exact ⟨toI32_lb nn, toI32_ub nn⟩
    · unfold inot
      omega
  rw [hbuf, from_bytes]
  rw [read_idx_round _ (toI32_lb _) (toI32_ub _)]
  simp only []
  rw [read_idx_round _ (toI32_lb _) (toI32_ub _)]
  simp only [usize_toI32 _ hcp, usize_toI32 _ hnp]
  rw [List.take_left, List.drop_left]
  rw [mkIdxList_round np hrng]
  have hfin : dsF (2 * (np.map (Except.ok : Int → Except String Int)).length + 1)
      (np.map (Except.ok : Int → Except String Int)) cp = .ok (e, []) := by
    have h := hdec cp [] (2 * (np.length + ([] : List (Except String Int)).length) + 1)
      ⟨[], by simp⟩ (le_refl _)
    simpa using h
  simp only [hfin]

lemma from_bytes_decompose (i1 i2 : Int) (body : List Nat)
    (h1 : -2147483648 ≤ i1) (h1b : i1 < 2147483648)
    (h2 : -2147483648 ≤ i2) (h2b : i2 < 2147483648) :
    from_bytes (i32leBytes i1 ++ (i32leBytes i2 ++ body)) =
      (match dsF (2 * (mkIdxList (usizeOfI32 i2)
            (body.drop (usizeOfI32 i1))).length + 1)
          (mkIdxList (usizeOfI32 i2) (body.drop (usizeOfI32 i1)))
          (body.take (usizeOfI32 i1)) with
       | .ok (e, _) => .ok e
       | .error er => .error er) := by
  rw [from_bytes]
  rw [read_idx_round i1 h1 h1b]
  simp only []
  rw [read_idx_round i2 h2 h2b]

lemma counterexample_eval :
    from_bytes (to_bytes (.Atom (List.replicate 2147483648 0))) =
      .error (.rerr "Invalid index encountered during deserialization.") := by
  have hser : serialize (BSExp.Atom (List.replicate 2147483648 0)) [] [] [] =
      ([(List.replicate 2147483648 0, toI32 0)],
       i32leBytes (toI32 (List.replicate 2147483648 (0 : Nat)).length) ++
         List.replicate 2147483648 0,
       [inot (toI32 0)]) := by
    rw [serialize]
    rw [show lookupTb (List.replicate 2147483648 (0 : Nat)) [] = none from rfl]
    simp only [List.nil_append, List.length_nil]
  have ha32 : toI32 (List.replicate 2147483648 (0 : Nat)).length =
      -2147483648 := by
    rw [List.length_replicate]
    decide
  have hinot : inot (toI32 0) = -1 := by decide
  have hcplen : (i32leBytes (-2147483648) ++
      List.replicate 2147483648 (0 : Nat)).length = 2147483652 := by
    rw [List.length_append, i32leBytes_length, List.length_replicate]
  have hnp4 : (npBytes [(-1 : Int)]).length = 4 := rfl
  have hbuf : to_bytes (.Atom (List.replicate 2147483648 0)) =
      i32leBytes (-2147483644) ++ (i32leBytes 1 ++
        (i32leBytes (-2147483648) ++ (List.replicate 2147483648 0 ++
          npBytes [-1]))) := by
    rw [to_bytes, hser]
    simp only []
    rw [ha32, hinot, hcplen]
    rw [show toI32 2147483652 = -2147483644 from by decide]
    rw [show ([(-1 : Int)]).length = 1 from rfl]
    rw [show toI32 1 = 1 from by decide]
    simp only [List.append_assoc]
  rw [hbuf]
  rw [from_bytes_decompose (-2147483644) 1 _ (by decide) (by decide)
    (by decide) (by decide)]
  rw [show usizeOfI32 (-2147483644) = 18446744071562067972 from by decide]
  rw [show usizeOfI32 1 = 1 from by decide]
  have hlen : (i32leBytes (-2147483648) ++ (List.replicate 2147483648 (0:Nat) ++
      npBytes [-1])).length = 2147483656 := by
    rw [List.length_append, List.length_append, i32leBytes_length,
      List.length_replicate, hnp4]
  rw [List.take_of_length_le (by rw [hlen]; norm_num)]
  rw [List.drop_eq_nil_of_le (by rw [hlen]; norm_num)]
  rw [show mkIdxList 1 ([] : List Nat) =
    [.error "Not enough bytes to read."] from rfl]
  rw [show (2 * ([Except.error "Not enough bytes to read."] :
    List (Except String Int)).length + 1) = 3 from rfl]
  rw [show ∀ cpx : List Nat, dsF 3 [.error "Not enough bytes to read."] cpx =
    .error (.rerr "Invalid index encountered during deserialization.") from
    fun cpx => rfl]

/-- C9 (amended): the superseded fixed-width format round-trips —
`from_bytes (to_bytes e) = Ok e` — for every expression whose serialized
constant pool and node pool each stay below `2^31` (so that every
`as i32` index cast is exact).  The unamended claim fails at a
`2^31`-byte atom (see the counterexample). -/
theorem fixed_width_roundtrip (e : BSExp)
    (hcp : (serialize e [] [] []).2.1.length < 2147483648)
    (hnp : (serialize e [] [] []).2.2.length < 2147483648) :
    from_bytes (to_bytes e) = .ok e := by
  rcases hser : serialize e [] [] [] with ⟨tb, cp, np⟩
  rw [hser] at hcp hnp
  exact roundtrip_bounded e tb cp np hser hcp hnp

/-- Witness for C9 at a small expression with a duplicated atom. -/
theorem fixed_width_roundtrip_witness :
    (serialize (.List [.Atom [1, 2], .List [.Atom [3], .Atom [1, 2]], .Atom [3]])
        [] [] []).2.1.length < 2147483648 ∧
    (serialize (.List [.Atom [1, 2], .List [.Atom [3], .Atom [1, 2]], .Atom [3]])
        [] [] []).2.2.length < 2147483648 ∧
    from_bytes (to_bytes
        (.List [.Atom [1, 2], .List [.Atom [3], .Atom [1, 2]], .Atom [3]])) =
      .ok (.List [.Atom [1, 2], .List [.Atom [3], .Atom [1, 2]], .Atom [3]]) :=
  ⟨by decide, by decide, fixed_width_roundtrip _ (by decide) (by decide)⟩

/-- C9 counterexample: for the `2^31`-byte atom the `as i32` casts wrap,
the recorded constant-pool length turns negative, and decoding fails, so
`from_bytes (to_bytes e) = Ok e` does not hold as stated for every `e`. -/
theorem fixed_width_roundtrip_counterexample :
    from_bytes (to_bytes (.Atom (List.replicate 2147483648 0))) ≠
      .ok (.Atom (List.replicate 2147483648 0)) := by
  rw [counterexample_eval]
  exact fun h => Except.noConfusion h

/-- C10 (code bug): `from_bytes` is not total — on a buffer whose node
pool holds the atom reference `!0` while the constant pool is empty, the
slice `constant_pool[0..4]` is out of range and the Rust code panics
(the `map_err` guard sits after the panicking indexing and is
unreachable).  The embedded evaluation exhibits the panic outcome. -/
theorem from_bytes_panics_on_short_pool :
    from_bytes [0, 0, 0, 0, 1, 0, 0, 0, 255, 255, 255, 255] =
      .error .panic := by decide

/-! ## Pool (BSEFile) format — spec-modelled

`traverse_helper` and `from_bsefile` in `src/serialization.rs` are
`todo!()` stubs and `write_vli_bytes` is absent from the sources, so the
encoder core and the decoder are modelled from the specification
(§4.2–§4.5, §6); the VLI codec they use is the real `src/vli.rs` code
embedded above. -/

/-- Modelled from the spec: the two content-addressed tables the
`todo!()` `traverse_helper` was to populate — the Atom Table and the
Node Table, contents in first-seen index order. -/
structure EncSt where
  atoms : List (List Nat)
  nodes : List (List Nat)
deriving DecidableEq

/-- First index of `b`, if present (content-addressed lookup). -/
def idxOf {α : Type} [DecidableEq α] (b : α) : List α → Option Nat
  | [] => none
  | x :: xs => if x = b then some 0 else (idxOf b xs).map (· + 1)

/-- Modelled from the spec §4.2: Atom Table `intern`. -/
def internAtom (b : List Nat) (s : EncSt) : Nat × EncSt :=
  match idxOf b s.atoms with
  | some i => (i, s)
  | none => (s.atoms.length, ⟨s.atoms ++ [b], s.nodes⟩)

/-- Modelled from the spec §4.3: Node Table `intern` on a
child-reference sequence. -/
def internNode (rs : List Nat) (s : EncSt) : Nat × EncSt :=
  match idxOf rs s.nodes with
  | some i => (i, s)
  | none => (s.nodes.length, ⟨s.atoms, s.nodes ++ [rs]⟩)

mutual

/-- Modelled from the spec §4.4: post-order resolution of one
expression to a tagged reference `(index << 1) | tag`. -/
def encodeE : BSExp → EncSt → Nat × EncSt
  | .Atom b, s =>
      match internAtom b s with
      | (i, s1) => ((i <<< 1) ||| 0, s1)
  | .List cs, s =>
      match encodeL cs s with
      | (rs, s1) =>
          match internNode rs s1 with
          | (i, s2) => ((i <<< 1) ||| 1, s2)

/-- Left-to-right resolution of a list of expressions. -/
def encodeL : List BSExp → EncSt → List Nat × EncSt
  | [], s => ([], s)
  | x :: xs, s =>
      match encodeE x s with
      | (r, s1) =>
          match encodeL xs s1 with
          | (rs, s2) => (r :: rs, s2)

end

/-- Atom buffer: per entry `VLI(byte length)` then the raw bytes. -/
def serAtoms : List (List Nat) → List Nat
  | [] => []
  | b :: rest => encVli b.length ++ b ++ serAtoms rest

/-- A run of VLI-encoded references. -/
def serRefs : List Nat → List Nat
  | [] => []
  | r :: rest => encVli r ++ serRefs rest

/-- Node buffer: per entry `VLI(child count)` then the child refs. -/
def serNodes : List (List Nat) → List Nat
  | [] => []
  | ns :: rest => encVli ns.length ++ serRefs ns ++ serNodes rest

/-- One write into the output buffer through the VLI writer
(`write_vli_bytes`, absent from the sources; modelled from the spec as
appending the encoder's `&v[0..l]`). -/
def writeVli (buf : List Nat) (n : Nat) : List Nat := buf ++ encVli n

/-- Raw byte append into the output buffer. -/
def writeBytes (buf : List Nat) (bs : List Nat) : List Nat := buf ++ bs

/-- Modelled from the spec §4.4/§6: `to_bsefile` for a sequence of
expressions, assembling the container through a sequence of writes into
one file buffer, as the Rust skeleton's `file_buf` does. -/
def to_bsefile (xs : List BSExp) : List Nat :=
  match encodeL xs ⟨[], []⟩ with
  | (roots, s) =>
      writeBytes
        (writeVli
          (writeVli
            (roots.foldl writeVli
              (writeVli
                (writeBytes
                  (writeVli (writeVli [] s.atoms.length) (serAtoms s.atoms).length)
                  (serAtoms s.atoms))
                roots.length))
            s.nodes.length)
          (serNodes s.nodes).length)
        (serNodes s.nodes)

/-- The writer's `Result<(), Infallible>` channel: `write_vli_bytes`
returns `Ok` for every input, so the assembled write chain is `Ok` of
the buffer (`Empty` plays `Infallible`). -/
def to_bsefileE (xs : List BSExp) : Except Empty (List Nat) :=
  .ok (to_bsefile xs)

/-- Decoder failure taxonomy of §4.5. -/
inductive DErr where
  | truncatedInput : DErr
  | invalidReference : DErr
deriving DecidableEq

/-- Parse `n` atom-table entries: `VLI(len)` then `len` raw bytes. -/
def parseAtoms : Nat → List Nat → Except DErr (List (List Nat) × List Nat)
  | 0, l => .ok ([], l)
  | n + 1, l =>
      match read_vli_bytes DErr.truncatedInput l with
      | .error e => .error e
      | .ok (len, l1) =>
          if len ≤ l1.length then
            match parseAtoms n (l1.drop len) with
            | .ok (bs, l2) => .ok (l1.take len :: bs, l2)
            | .error e => .error e
          else .error .truncatedInput

/-- Read `n` consecutive VLI values. -/
def readVlis : Nat → List Nat → Except DErr (List Nat × List Nat)
  | 0, l => .ok ([], l)
  | n + 1, l =>
      match read_vli_bytes DErr.truncatedInput l with
      | .error e => .error e
      | .ok (r, l1) =>
          match readVlis n l1 with
          | .ok (rs, l2) => .ok (r :: rs, l2)
          | .error e => .error e

/-- Parse `n` node-table entries: `VLI(count)` then `count` refs. -/
def parseNodes : Nat → List Nat → Except DErr (List (List Nat) × List Nat)
  | 0, l => .ok ([], l)
  | n + 1, l =>
      match read_vli_bytes DErr.truncatedInput l with
      | .error e => .error e
      | .ok (cnt, l1) =>
          match readVlis cnt l1 with
          | .error e => .error e
          | .ok (rs, l2) =>
              match parseNodes n l2 with
              | .ok (nss, l3) => .ok (rs :: nss, l3)
              | .error e => .error e

/-- Resolve one tagged reference against the atom list and the memo
table; an atom index past the table, or a node index at or past the
current memo length (its own index or higher), is `InvalidReference`. -/
def resolveChk (atoms : List (List Nat)) (memo : List BSExp) (x : Nat) :
    Except DErr BSExp :=
  if x &&& 1 = 0 then
    if x >>> 1 < atoms.length then .ok (.Atom (atoms.getD (x >>> 1) []))
    else .error .invalidReference
  else
    if x >>> 1 < memo.length then .ok (memo.getD (x >>> 1) (.Atom []))
    else .error .invalidReference

/-- Resolve a reference sequence left to right. -/
def resolveList (atoms : List (List Nat)) (memo : List BSExp) :
    List Nat → Except DErr (List BSExp)
  | [] => .ok []
  | x :: rest =>
      match resolveChk atoms memo x with
      | .error e => .error e
      | .ok e =>
          match resolveList atoms memo rest with
          | .ok es => .ok (e :: es)
          | .error er => .error er

/-- Materialise node entries in index order, memoising each value. -/
def matGo (atoms : List (List Nat)) (memo : List BSExp) :
    List (List Nat) → Except DErr (List BSExp)
  | [] => .ok memo
  | ns :: rest =>
      match resolveList atoms memo ns with
      | .error e => .error e
      | .ok cs => matGo atoms (memo ++ [.List cs]) rest

/-- Modelled from the spec §4.5/§6: `from_bsefile`. -/
def from_bsefile (buf : List Nat) : Except DErr (List BSExp) :=
  match read_vli_bytes DErr.truncatedInput buf with
  | .error e => .error e
  | .ok (nAtoms, r1) =>
    match read_vli_bytes DErr.truncatedInput r1 with
    | .error e => .error e
    | .ok (aLen, r2) =>
      if aLen ≤ r2.length then
        match parseAtoms nAtoms (r2.take aLen) with
        | .error e => .error e
        | .ok (atoms, _) =>
          match read_vli_bytes DErr.truncatedInput (r2.drop aLen) with
          | .error e => .error e
          | .ok (nRoots, r3) =>
            match readVlis nRoots r3 with
            | .error e => .error e
            | .ok (roots, r4) =>
              match read_vli_bytes DErr.truncatedInput r4 with
              | .error e => .error e
              | .ok (nNodes, r5) =>
                match read_vli_bytes DErr.truncatedInput r5 with
                | .error e => .error e
                | .ok (nLen, r6) =>
                  if nLen ≤ r6.length then
                    match parseNodes nNodes (r6.take nLen) with
                    | .error e => .error e
                    | .ok (nodes, _) =>
                      match matGo atoms [] nodes with
                      | .error e => .error e
                      | .ok memo => resolveList atoms memo roots
                  else .error .truncatedInput
      else .error .truncatedInput


/-- The writer channel of `to_bsefileR`: a single VLI write, always
`Ok` (mirroring `Result<(), Infallible>`). -/
def writeVliE (buf : List Nat) (n : Nat) : Except Empty (List Nat) :=
  .ok (writeVli buf n)

/-- `to_bsefile` with the writer's `Result` channel made explicit: every
write is threaded through `Except Empty`, as the Rust skeleton threads
`Result<(), Infallible>` before `.unwrap()`. -/
def to_bsefileR (xs : List BSExp) : Except Empty (List Nat) :=
  match encodeL xs ⟨[], []⟩ with
  | (roots, s) => do
      let b1 ← writeVliE [] s.atoms.length
      let b2 ← writeVliE b1 (serAtoms s.atoms).length
      let b3 := writeBytes b2 (serAtoms s.atoms)
      let b4 ← writeVliE b3 roots.length
      let b5 ← roots.foldlM writeVliE b4
      let b6 ← writeVliE b5 s.nodes.length
      let b7 ← writeVliE b6 (serNodes s.nodes).length
      return writeBytes b7 (serNodes s.nodes)

lemma foldlM_writeVliE (roots : List Nat) :
    ∀ b, roots.foldlM writeVliE b = .ok (roots.foldl writeVli b) := by
  induction roots with
  | nil => intro b; rfl
  | cons r rest ih =>
      intro b
      rw [List.foldlM_cons, List.foldl_cons]
      show Except.bind (writeVliE b r) _ = _
      rw [writeVliE]
      show rest.foldlM writeVliE (writeVli b r) = _
      exact ih (writeVli b r)

/-- C6: encoding never fails — with the writer's `Result` channel made
explicit, `to_bsefile` always returns `Ok` of a byte buffer; there is no
error case (`Empty` is uninhabited) and the Lean model is total, so no
panic either. -/
theorem to_bsefile_infallible (xs : List BSExp) :
    to_bsefileR xs = .ok (to_bsefile xs) := by
  rw [to_bsefileR, to_bsefile]
  rcases encodeL xs ⟨[], []⟩ with ⟨roots, s⟩
  simp only [writeVliE, foldlM_writeVliE]
  rfl

lemma foldl_writeVli (roots : List Nat) :
    ∀ b, roots.foldl writeVli b = b ++ serRefs roots := by
  induction roots with
  | nil => intro b; simp [serRefs]
  | cons r rest ih =>
      intro b
      rw [List.foldl_cons, serRefs, ih (writeVli b r), writeVli,
        List.append_assoc]

/-- The container layout of `to_bsefile`, as one concatenation. -/
lemma to_bsefile_eq (xs : List BSExp) (roots : List Nat) (s : EncSt)
    (henc : encodeL xs ⟨[], []⟩ = (roots, s)) :
    to_bsefile xs =
      encVli s.atoms.length ++ encVli (serAtoms s.atoms).length ++
      serAtoms s.atoms ++ encVli roots.length ++ serRefs roots ++
      encVli s.nodes.length ++ encVli (serNodes s.nodes).length ++
      serNodes s.nodes := by
  rw [to_bsefile, henc]
  simp only [writeVli, writeBytes, foldl_writeVli, List.nil_append]

/-- C5: the buffer produced by `to_bsefile` is laid out, in order, as
`VLI(atom count)`, `VLI(atom buffer length)`, atom buffer,
`VLI(root count)`, one VLI tagged reference per root, `VLI(node count)`,
`VLI(node buffer length)`, node buffer. -/
theorem to_bsefile_layout (xs : List BSExp) (roots : List Nat) (s : EncSt)
    (henc : encodeL xs ⟨[], []⟩ = (roots, s)) :
    to_bsefile xs =
      encVli s.atoms.length ++ encVli (serAtoms s.atoms).length ++
      serAtoms s.atoms ++ encVli roots.length ++ serRefs roots ++
      encVli s.nodes.length ++ encVli (serNodes s.nodes).length ++
      serNodes s.nodes :=
  to_bsefile_eq xs roots s henc

/-- Witness for C5 at a two-expression input. -/
theorem to_bsefile_layout_witness :
    encodeL [BSExp.Atom [7], BSExp.List [.Atom [7]]] ⟨[], []⟩ =
      ([0, 1], ⟨[[7]], [[0]]⟩) ∧
    to_bsefile [BSExp.Atom [7], BSExp.List [.Atom [7]]] =
      encVli 1 ++ encVli 2 ++ serAtoms [[7]] ++ encVli 2 ++ serRefs [0, 1] ++
      encVli 1 ++ encVli 2 ++ serNodes [[0]] :=
  ⟨by decide, to_bsefile_layout _ [0, 1] ⟨[[7]], [[0]]⟩ (by decide)⟩

/-- C7: `from_bsefile` either returns a fully built result or a typed
error with nothing partially built; a crafted buffer whose node 0 references
node 0 (its own index) fails with `InvalidReference`; an empty buffer
and an unterminated VLI fail with `TruncatedInput`. -/
theorem from_bsefile_errors :
    (∀ buf : List Nat, (∃ r, from_bsefile buf = .ok r) ∨
        from_bsefile buf = .error .truncatedInput ∨
        from_bsefile buf = .error .invalidReference) ∧
    from_bsefile [0, 0, 0, 1, 2, 1, 1] = .error .invalidReference ∧
    from_bsefile [] = .error .truncatedInput ∧
    from_bsefile [128] = .error .truncatedInput := by
  refine ⟨?_, by decide, by decide, by decide⟩
  intro buf
  cases h : from_bsefile buf with
  | ok r => exact .inl ⟨r, rfl⟩
  | error e =>
      cases e
      · exact .inr (.inl rfl)
      · exact .inr (.inr rfl)

/-! ### Tagged-reference arithmetic -/

lemma tag0_and (i : Nat) : ((i <<< 1) ||| 0) &&& 1 = 0 := by
  rw [Nat.or_zero]
  have h1 : (1 : Nat) = 2 ^ 1 - 1 := rfl
  rw [h1, Nat.and_pow_two_sub_one_eq_mod, Nat.shiftLeft_eq]
  omega

lemma tag0_shift (i : Nat) : ((i <<< 1) ||| 0) >>> 1 = i := by
  rw [Nat.or_zero, Nat.shiftLeft_eq, Nat.shiftRight_eq_div_pow]
  omega

lemma tag1_eq (i : Nat) : (i <<< 1) ||| 1 = 2 * i + 1 := by
  rw [Nat.lor_comm, orAdd 1 i 1 (by norm_num)]
  omega

lemma tag1_and (i : Nat) : ((i <<< 1) ||| 1) &&& 1 = 1 := by
  rw [tag1_eq]
  have h1 : (1 : Nat) = 2 ^ 1 - 1 := rfl
  conv_lhs => rw [h1]
  rw [Nat.and_pow_two_sub_one_eq_mod]
  omega

lemma tag1_shift (i : Nat) : ((i <<< 1) ||| 1) >>> 1 = i := by
  rw [tag1_eq, Nat.shiftRight_eq_div_pow]
  omega

/-! ### idxOf facts -/

lemma idxOf_none {α : Type} [DecidableEq α] (b : α) :
    ∀ l : List α, idxOf b l = none → b ∉ l := by
  intro l
  induction l with
  | nil => intro _ h; cases h
  | cons x xs ih =>
      intro h
      rw [idxOf] at h
      by_cases hx : x = b
      · simp [hx] at h
      · simp only [if_neg hx] at h
        intro hm
        rcases List.mem_cons.mp hm with hm | hm
        · exact hx hm.symm
        · exact ih (by cases hi : idxOf b xs <;> simp [hi] at h ⊢) hm

lemma idxOf_some {α : Type} [DecidableEq α] (b : α) (d : α) :
    ∀ (l : List α) (i : Nat), idxOf b l = some i →
      i < l.length ∧ l.getD i d = b := by
  intro l
  induction l with
  | nil => intro i h; cases h
  | cons x xs ih =>
      intro i h
      rw [idxOf] at h
      by_cases hx : x = b
      · simp only [if_pos hx] at h
        cases h
        exact ⟨by simp, hx⟩
      · simp only [if_neg hx] at h
        cases hi : idxOf b xs with
        | none => rw [hi] at h; cases h
        | some j =>
            rw [hi] at h
            simp at h
            obtain ⟨hj1, hj2⟩ := ih j hi
            rw [← h]
            exact ⟨by simp; omega, by simpa using hj2⟩

/-! ### Decoder semantics: materialisation and well-formedness -/

/-- Unchecked resolution of a tagged reference (the value the checked
`resolveChk` returns when in range). -/
def resolveD (atoms : List (List Nat)) (memo : List BSExp) (x : Nat) : BSExp :=
  if x &&& 1 = 0 then .Atom (atoms.getD (x >>> 1) [])
  else memo.getD (x >>> 1) (.Atom [])

/-- Total materialisation of the node table (the memo list the checked
`matGo` builds when every reference is in range). -/
def memoF (atoms : List (List Nat)) (memo : List BSExp) :
    List (List Nat) → List BSExp
  | [] => memo
  | ns :: rest => memoF atoms (memo ++ [.List (ns.map (resolveD atoms memo))]) rest

/-- A reference sequence is well formed at node index `j`: atom indices
stay inside the atom table, node indices stay strictly below `j`. -/
def wfRefs (nA j : Nat) (ns : List Nat) : Prop :=
  ∀ x ∈ ns, (x &&& 1 = 0 → x >>> 1 < nA) ∧ (x &&& 1 = 1 → x >>> 1 < j)

/-- All node entries from index `j` on are well formed. -/
def WfFrom (nA : Nat) : Nat → List (List Nat) → Prop
  | _, [] => True
  | j, ns :: rest => wfRefs nA j ns ∧ WfFrom nA (j + 1) rest

/-- The whole encoder state is well formed. -/
def Wf (s : EncSt) : Prop := WfFrom s.atoms.length 0 s.nodes

/-- A tagged reference points inside the state's tables. -/
def refOk (s : EncSt) (r : Nat) : Prop :=
  (r &&& 1 = 0 → r >>> 1 < s.atoms.length) ∧
  (r &&& 1 = 1 → r >>> 1 < s.nodes.length)

/-- What a reference means in a state: resolution against the fully
materialised node table. -/
def denoteRef (s : EncSt) (x : Nat) : BSExp :=
  resolveD s.atoms (memoF s.atoms [] s.nodes) x

lemma memoF_length (atoms : List (List Nat)) :
    ∀ nodes memo, (memoF atoms memo nodes).length = memo.length + nodes.length := by
  intro nodes
  induction nodes with
  | nil => intro memo; simp [memoF]
  | cons ns rest ih =>
      intro memo
      rw [memoF, ih]
      simp
      omega

lemma memoF_extends (atoms : List (List Nat)) :
    ∀ nodes memo, memo <+: memoF atoms memo nodes := by
  intro nodes
  induction nodes with
  | nil => intro memo; exact List.prefix_refl memo
  | cons ns rest ih =>
      intro memo
      exact List.IsPrefix.trans (List.prefix_append memo _) (ih _)

lemma prefix_getD {α : Type} (l1 l2 : List α) (j : Nat) (d : α)
    (h : l1 <+: l2) (hj : j < l1.length) : l2.getD j d = l1.getD j d := by
  obtain ⟨t, rfl⟩ := h
  rw [List.getD_eq_getElem?_getD, List.getD_eq_getElem?_getD]
  rw [List.getElem?_append_left hj]

lemma memoF_getD_early (atoms : List (List Nat)) (nodes : List (List Nat))
    (memo : List BSExp) (j : Nat) (d : BSExp) (hj : j < memo.length) :
    (memoF atoms memo nodes).getD j d = memo.getD j d :=
  prefix_getD memo _ j d (memoF_extends atoms nodes memo) hj

lemma memoF_stable (atoms1 atoms2 : List (List Nat)) (hA : atoms1 <+: atoms2) :
    ∀ nodes1 nodes2 memo, nodes1 <+: nodes2 →
      WfFrom atoms1.length memo.length nodes1 →
      ∀ j (d : BSExp), j < memo.length + nodes1.length →
        (memoF atoms2 memo nodes2).getD j d =
          (memoF atoms1 memo nodes1).getD j d := by
  intro nodes1
  induction nodes1 with
  | nil =>
      intro nodes2 memo _ _ j d hj
      rw [memoF]
      rw [memoF_getD_early atoms2 nodes2 memo j d (by simpa using hj)]
  | cons ns rest1 ih =>
      intro nodes2 memo hpre hwf j d hj
      obtain ⟨t, rfl⟩ := hpre
      rw [List.cons_append, memoF, memoF]
      have hmap : ns.map (resolveD atoms2 memo) = ns.map (resolveD atoms1 memo) := by
        apply List.map_congr_left
        intro x hx
        obtain ⟨hx0, hx1⟩ := hwf.1 x hx
        unfold resolveD
        by_cases h0 : x &&& 1 = 0
        · rw [if_pos h0, if_pos h0,
            prefix_getD atoms1 atoms2 (x >>> 1) [] hA (hx0 h0)]
        · rw [if_neg h0, if_neg h0]
      rw [hmap]
      exact ih (rest1 ++ t) (memo ++ [.List (ns.map (resolveD atoms1 memo))])
        ⟨t, rfl⟩ (by simpa using hwf.2) j d
        (by simp at hj ⊢; omega)

lemma getD_append_len {α : Type} (l : List α) (v d : α) :
    (l ++ [v]).getD l.length d = v := by
  rw [List.getD_eq_getElem?_getD, List.getElem?_concat_length]
  rfl

lemma memoF_getD_at (atoms : List (List Nat)) (d : BSExp) :
    ∀ (nodes : List (List Nat)) (memo : List BSExp) (j : Nat),
      j < nodes.length →
      (memoF atoms memo nodes).getD (memo.length + j) d =
        .List ((nodes.getD j []).map
          (resolveD atoms (memoF atoms memo (nodes.take j)))) := by
  intro nodes
  induction nodes with
  | nil => intro memo j hj; cases hj
  | cons ns rest ih =>
      intro memo j hj
      cases j with
      | zero =>
          rw [memoF]
          rw [memoF_getD_early atoms rest _ _ d (by simp)]
          rw [show memo.length + 0 = memo.length from rfl, getD_append_len]
          rfl
      | succ j =>
          rw [memoF]
          have hstep : memo.length + (j + 1) =
              (memo ++ [BSExp.List (ns.map (resolveD atoms memo))]).length + j := by
            simp
            omega
          rw [hstep, ih _ j (by simpa using hj)]
          rfl

/-! ### Well-formedness helpers -/

lemma WfFrom_mono (nA nA' : Nat) (h : nA ≤ nA') :
    ∀ (nodes : List (List Nat)) (j : Nat), WfFrom nA j nodes → WfFrom nA' j nodes := by
  intro nodes
  induction nodes with
  | nil => intro j _; trivial
  | cons ns rest ih =>
      intro j hw
      exact ⟨fun x hx => ⟨fun h0 => lt_of_lt_of_le ((hw.1 x hx).1 h0) h,
        (hw.1 x hx).2⟩, ih (j + 1) hw.2⟩

lemma WfFrom_append (nA : Nat) (rs : List Nat) :
    ∀ (l1 : List (List Nat)) (j : Nat), WfFrom nA j l1 →
      wfRefs nA (j + l1.length) rs → WfFrom nA j (l1 ++ [rs]) := by
  intro l1
  induction l1 with
  | nil => intro j _ hr; exact ⟨by simpa using hr, trivial⟩
  | cons ns rest ih =>
      intro j hw hr
      refine ⟨hw.1, ih (j + 1) hw.2 ?_⟩
      have : j + 1 + rest.length = j + (ns :: rest).length := by simp; omega
      rw [this]
      exact hr

lemma WfFrom_take (nA : Nat) :
    ∀ (nodes : List (List Nat)) (j k : Nat), WfFrom nA j nodes →
      WfFrom nA j (nodes.take k) := by
  intro nodes
  induction nodes with
  | nil => intro j k _; rw [List.take_nil]; trivial
  | cons ns rest ih =>
      intro j k hw
      cases k with
      | zero => trivial
      | succ k => exact ⟨hw.1, ih (j + 1) k hw.2⟩

lemma WfFrom_at (nA : Nat) :
    ∀ (nodes : List (List Nat)) (j i : Nat), WfFrom nA j nodes →
      i < nodes.length → wfRefs nA (j + i) (nodes.getD i []) := by
  intro nodes
  induction nodes with
  | nil => intro j i _ hi; cases hi
  | cons ns rest ih =>
      intro j i hw hi
      cases i with
      | zero => simpa using hw.1
      | succ i =>
          have := ih (j + 1) i hw.2 (by simpa using hi)
          rw [show j + (i + 1) = j + 1 + i from by omega]
          simpa using this

/-! ### Checked decoding agrees with the total semantics -/

lemma and_one_cases (x : Nat) : x &&& 1 = 0 ∨ x &&& 1 = 1 := by
  have h1 : (1 : Nat) = 2 ^ 1 - 1 := rfl
  rw [h1, Nat.and_pow_two_sub_one_eq_mod]
  omega

lemma resolveChk_ok (atoms : List (List Nat)) (memo : List BSExp) (x : Nat)
    (h0 : x &&& 1 = 0 → x >>> 1 < atoms.length)
    (h1 : x &&& 1 = 1 → x >>> 1 < memo.length) :
    resolveChk atoms memo x = .ok (resolveD atoms memo x) := by
  rcases and_one_cases x with h | h
  · simp only [resolveChk, resolveD, if_pos h, if_pos (h0 h)]
  · have hne : ¬ x &&& 1 = 0 := by omega
    simp only [resolveChk, resolveD, if_neg hne, if_pos (h1 h)]

lemma resolveList_ok (atoms : List (List Nat)) (memo : List BSExp) :
    ∀ ns : List Nat,
      (∀ x ∈ ns, (x &&& 1 = 0 → x >>> 1 < atoms.length) ∧
        (x &&& 1 = 1 → x >>> 1 < memo.length)) →
      resolveList atoms memo ns = .ok (ns.map (resolveD atoms memo)) := by
  intro ns
  induction ns with
  | nil => intro _; rfl
  | cons x rest ih =>
      intro h
      rw [resolveList, resolveChk_ok atoms memo x (h x (by simp)).1 (h x (by simp)).2,
        ih fun y hy => h y (by simp [hy])]
      rfl

lemma matGo_ok (atoms : List (List Nat)) :
    ∀ (nodes : List (List Nat)) (memo : List BSExp),
      WfFrom atoms.length memo.length nodes →
      matGo atoms memo nodes = .ok (memoF atoms memo nodes) := by
  intro nodes
  induction nodes with
  | nil => intro memo _; rfl
  | cons ns rest ih =>
      intro memo hw
      rw [matGo, memoF]
      rw [resolveList_ok atoms memo ns fun x hx => (hw.1 x hx)]
      exact ih _ (by simpa using hw.2)

mutual

/-- `b` occurs as an atom inside the expression. -/
def atomIn (b : List Nat) : BSExp → Bool
  | .Atom a => a = b
  | .List l => atomInL b l

/-- `b` occurs as an atom inside one of the expressions. -/
def atomInL (b : List Nat) : List BSExp → Bool
  | [] => false
  | x :: xs => atomIn b x || atomInL b xs

end

lemma nodupSnoc {α : Type} (l : List α) (b : α) (hn : l.Nodup) (hb : b ∉ l) :
    (l ++ [b]).Nodup := by
  rw [List.nodup_append]
  exact ⟨hn, List.nodup_singleton b, by simpa using hb⟩

lemma getD_mem {α : Type} (l : List α) (i : Nat) (d : α) (h : i < l.length) :
    l.getD i d ∈ l := by
  rw [List.getD_eq_getElem l d h]
  exact List.getElem_mem h

lemma refOk_mono (s1 t : EncSt) (r : Nat) (hA : s1.atoms <+: t.atoms)
    (hN : s1.nodes <+: t.nodes) (h : refOk s1 r) : refOk t r :=
  ⟨fun h0 => lt_of_lt_of_le (h.1 h0) hA.length_le,
   fun h1 => lt_of_lt_of_le (h.2 h1) hN.length_le⟩

lemma denote_stable (s1 t : EncSt) (r : Nat) (hA : s1.atoms <+: t.atoms)
    (hN : s1.nodes <+: t.nodes) (hw : Wf s1) (hr : refOk s1 r) :
    denoteRef t r = denoteRef s1 r := by
  unfold denoteRef resolveD
  rcases and_one_cases r with h | h
  · rw [if_pos h, if_pos h,
      prefix_getD s1.atoms t.atoms (r >>> 1) [] hA (hr.1 h)]
  · have hne : ¬ r &&& 1 = 0 := by omega
    rw [if_neg hne, if_neg hne]
    exact memoF_stable s1.atoms t.atoms hA s1.nodes t.nodes [] hN hw
      (r >>> 1) (.Atom []) (by simpa using hr.2 h)

/-- Induction statement for `encodeE`. -/
def PoolOk (e : BSExp) : Prop :=
  ∀ s r s1, encodeE e s = (r, s1) →
    s.atoms <+: s1.atoms ∧ s.nodes <+: s1.nodes ∧
    (s.atoms.Nodup → s1.atoms.Nodup) ∧
    (∀ b, atomIn b e = true → b ∈ s1.atoms) ∧
    (Wf s → Wf s1 ∧ refOk s1 r ∧
      ∀ t : EncSt, s1.atoms <+: t.atoms → s1.nodes <+: t.nodes → Wf t →
        denoteRef t r = e)

/-- Induction statement for `encodeL`. -/
def PoolListOk (l : List BSExp) : Prop :=
  ∀ s rs s1, encodeL l s = (rs, s1) →
    s.atoms <+: s1.atoms ∧ s.nodes <+: s1.nodes ∧
    (s.atoms.Nodup → s1.atoms.Nodup) ∧
    (∀ b, atomInL b l = true → b ∈ s1.atoms) ∧
    (Wf s → Wf s1 ∧ (∀ r ∈ rs, refOk s1 r) ∧
      ∀ t : EncSt, s1.atoms <+: t.atoms → s1.nodes <+: t.nodes → Wf t →
        rs.map (denoteRef t) = l)

lemma poolListOk_nil : PoolListOk [] := by
  intro s rs s1 heq
  rw [encodeL] at heq
  simp only [Prod.mk.injEq] at heq
  obtain ⟨rfl, rfl⟩ := heq
  refine ⟨List.prefix_refl _, List.prefix_refl _, id, by simp [atomInL], ?_⟩
  intro hw
  exact ⟨hw, by simp, fun t _ _ _ => rfl⟩

lemma poolOk_atom (b : List Nat) : PoolOk (.Atom b) := by
  intro s r s1 heq
  rw [encodeE] at heq
  cases hl : idxOf b s.atoms with
  | some i =>
      rw [internAtom, hl] at heq
      simp only [Prod.mk.injEq] at heq
      obtain ⟨rfl, rfl⟩ := heq
      obtain ⟨hilt, hget⟩ := idxOf_some b [] s.atoms i hl
      refine ⟨List.prefix_refl _, List.prefix_refl _, id, ?_, ?_⟩
      · intro b' hb'
        have hbb : b = b' := by simpa [atomIn] using hb'
        rw [← hbb, ← hget]
        exact getD_mem s.atoms i [] hilt
      · intro hw
        refine ⟨hw, ⟨fun _ => by rw [tag0_shift]; exact hilt,
          fun h1 => by rw [tag0_and] at h1; cases h1⟩, ?_⟩
        intro t hA hN _
        unfold denoteRef resolveD
        rw [if_pos (tag0_and i), tag0_shift,
          prefix_getD s.atoms t.atoms i [] hA hilt, hget]
  | none =>
      rw [internAtom, hl] at heq
      simp only [Prod.mk.injEq] at heq
      obtain ⟨rfl, rfl⟩ := heq
      have hnin : b ∉ s.atoms := idxOf_none b s.atoms hl
      refine ⟨⟨[b], rfl⟩, List.prefix_refl _, fun hn => nodupSnoc _ _ hn hnin, ?_, ?_⟩
      · intro b' hb'
        have hbb : b = b' := by simpa [atomIn] using hb'
        rw [← hbb]
        simp
      · intro hw
        refine ⟨?_, ⟨fun _ => by rw [tag0_shift]; simp, fun h1 => by
          rw [tag0_and] at h1; cases h1⟩, ?_⟩
        · show WfFrom (s.atoms ++ [b]).length 0 s.nodes
          rw [show (s.atoms ++ [b]).length = s.atoms.length + 1 from by simp]
          exact WfFrom_mono s.atoms.length (s.atoms.length + 1) (by omega)
            s.nodes 0 hw
        · intro t hA hN _
          unfold denoteRef resolveD
          rw [if_pos (tag0_and _), tag0_shift]
          have hlt : s.atoms.length < (s.atoms ++ [b]).length := by simp
          rw [prefix_getD (s.atoms ++ [b]) t.atoms s.atoms.length [] hA hlt,
            getD_append_len]

lemma poolListOk_cons (x : BSExp) (xs : List BSExp) (ihx : PoolOk x)
    (ihxs : PoolListOk xs) : PoolListOk (x :: xs) := by
  intro s rs s2 heq
  rw [encodeL] at heq
  rcases hx : encodeE x s with ⟨r, s1⟩
  rw [hx] at heq
  simp only [] at heq
  rcases hxs : encodeL xs s1 with ⟨rs1, s2'⟩
  rw [hxs] at heq
  simp only [Prod.mk.injEq] at heq
  obtain ⟨rfl, rfl⟩ := heq
  obtain ⟨hA1, hN1, hnd1, hin1, hsem1⟩ := ihx s r s1 hx
  obtain ⟨hA2, hN2, hnd2, hin2, hsem2⟩ := ihxs s1 rs1 s2' hxs
  refine ⟨hA1.trans hA2, hN1.trans hN2, fun hn => hnd2 (hnd1 hn), ?_, ?_⟩
  · intro b hb
    rw [atomInL] at hb
    rcases Bool.or_eq_true_iff.mp hb with hb | hb
    · exact hA2.subset (hin1 b hb)
    · exact hin2 b hb
  · intro hw
    obtain ⟨hw1, hro1, hd1⟩ := hsem1 hw
    obtain ⟨hw2, hro2, hd2⟩ := hsem2 hw1
    refine ⟨hw2, ?_, ?_⟩
    · intro z hz
      rcases List.mem_cons.mp hz with hz | hz
      · rw [hz]
        exact refOk_mono s1 s2' r hA2 hN2 hro1
      · exact hro2 z hz
    · intro t hA hN hwt
      rw [List.map_cons]
      rw [hd1 t (hA2.trans hA) (hN2.trans hN) hwt, hd2 t hA hN hwt]

lemma take_isPre {α : Type} (l : List α) (i : Nat) : l.take i <+: l :=
  ⟨l.drop i, List.take_append_drop i l⟩

lemma length_take_of_le {α : Type} (l : List α) (i : Nat) (h : i ≤ l.length) :
    (l.take i).length = i := by
  rw [List.length_take]
  omega

lemma take_append_single {α : Type} (l : List α) (v : α) :
    (l ++ [v]).take l.length = l := by
  rw [List.take_append_of_le_length (le_refl _), List.take_length]

lemma resolveD_take_eq (sm : EncSt) (i : Nat) (hi : i ≤ sm.nodes.length)
    (hw : Wf sm) (r' : Nat)
    (hr1 : r' &&& 1 = 1 → r' >>> 1 < i) :
    resolveD sm.atoms (memoF sm.atoms [] (sm.nodes.take i)) r' =
      denoteRef sm r' := by
  unfold denoteRef resolveD
  rcases and_one_cases r' with h | h
  · rw [if_pos h, if_pos h]
  · have hne : ¬ r' &&& 1 = 0 := by omega
    rw [if_neg hne, if_neg hne]
    have hst := memoF_stable sm.atoms sm.atoms (List.prefix_refl _)
      (sm.nodes.take i) sm.nodes [] (take_isPre sm.nodes i)
      (WfFrom_take sm.atoms.length sm.nodes 0 i hw)
      (r' >>> 1) (.Atom [])
      (by rw [length_take_of_le sm.nodes i hi]; simpa using hr1 h)
    rw [hst]

lemma poolOk_list (cs : List BSExp) (ih : PoolListOk cs) : PoolOk (.List cs) := by
  intro s r s1 heq
  rw [encodeE] at heq
  rcases hcs : encodeL cs s with ⟨rs, sm⟩
  rw [hcs] at heq
  simp only [] at heq
  obtain ⟨hA1, hN1, hnd1, hin1, hsem1⟩ := ih s rs sm hcs
  cases hl : idxOf rs sm.nodes with
  | some i =>
      rw [internNode, hl] at heq
      simp only [Prod.mk.injEq] at heq
      obtain ⟨rfl, rfl⟩ := heq
      obtain ⟨hilt, hget⟩ := idxOf_some rs [] sm.nodes i hl
      refine ⟨hA1, hN1, hnd1,
        (fun b hb => hin1 b (by simpa [atomIn] using hb)), ?_⟩
      intro hw
      obtain ⟨hw1, hro1, hd1⟩ := hsem1 hw
      refine ⟨hw1, ⟨fun h0 => (by rw [tag1_and] at h0; cases h0),
        fun _ => (by rw [tag1_shift]; exact hilt)⟩, ?_⟩
      intro t hA hN hwt
      unfold denoteRef resolveD
      have hne : ¬ ((i <<< 1) ||| 1) &&& 1 = 0 := by rw [tag1_and]; omega
      rw [if_neg hne, tag1_shift]
      rw [memoF_stable sm.atoms t.atoms hA sm.nodes t.nodes [] hN hw1 i
        (.Atom []) (by simpa using hilt)]
      have hat := memoF_getD_at sm.atoms (.Atom []) sm.nodes [] i hilt
      rw [show ([] : List BSExp).length + i = i from by simp] at hat
      rw [hat, hget]
      have hwr := WfFrom_at sm.atoms.length sm.nodes 0 i hw1 hilt
      rw [hget] at hwr
      have hmap : rs.map (resolveD sm.atoms (memoF sm.atoms []
          (sm.nodes.take i))) = rs.map (denoteRef sm) := by
        apply List.map_congr_left
        intro r' hr'
        exact resolveD_take_eq sm i (le_of_lt hilt) hw1 r'
          (fun h1 => by simpa using (hwr r' hr').2 h1)
      rw [hmap, hd1 sm (List.prefix_refl _) (List.prefix_refl _) hw1]
  | none =>
      rw [internNode, hl] at heq
      simp only [Prod.mk.injEq] at heq
      obtain ⟨rfl, rfl⟩ := heq
      refine ⟨hA1, hN1.trans ⟨[rs], rfl⟩, hnd1,
        (fun b hb => hin1 b (by simpa [atomIn] using hb)), ?_⟩
      intro hw
      obtain ⟨hw1, hro1, hd1⟩ := hsem1 hw
      have hwnew : Wf ⟨sm.atoms, sm.nodes ++ [rs]⟩ := by
        show WfFrom sm.atoms.length 0 (sm.nodes ++ [rs])
        apply WfFrom_append sm.atoms.length rs sm.nodes 0 hw1
        intro x hx
        exact ⟨(hro1 x hx).1, fun h1 => by simpa using (hro1 x hx).2 h1⟩
      refine ⟨hwnew, ⟨fun h0 => (by rw [tag1_and] at h0; cases h0),
        fun _ => (by rw [tag1_shift]; simp)⟩, ?_⟩
      intro t hA hN hwt
      unfold denoteRef resolveD
      have hne : ¬ ((sm.nodes.length <<< 1) ||| 1) &&& 1 = 0 := by
        rw [tag1_and]; omega
      rw [if_neg hne, tag1_shift]
      rw [memoF_stable sm.atoms t.atoms hA (sm.nodes ++ [rs]) t.nodes [] hN
        hwnew sm.nodes.length (.Atom []) (by simp)]
      have hlt : sm.nodes.length < (sm.nodes ++ [rs]).length := by simp
      have hat := memoF_getD_at sm.atoms (.Atom []) (sm.nodes ++ [rs]) []
        sm.nodes.length hlt
      rw [show ([] : List BSExp).length + sm.nodes.length = sm.nodes.length
        from by simp] at hat
      rw [hat, getD_append_len, take_append_single]
      have hmap : rs.map (resolveD sm.atoms (memoF sm.atoms [] sm.nodes)) =
          rs.map (denoteRef sm) := rfl
      rw [hmap, hd1 sm (List.prefix_refl _) (List.prefix_refl _) hw1]

mutual

theorem poolOk_all : ∀ e : BSExp, PoolOk e
  | .Atom b => poolOk_atom b
  | .List l => poolOk_list l (poolListOk_all l)

theorem poolListOk_all : ∀ l : List BSExp, PoolListOk l
  | [] => poolListOk_nil
  | x :: xs => poolListOk_cons x xs (poolOk_all x) (poolListOk_all xs)

end

/-! ### Parsing back the serialized tables -/

lemma parseAtoms_ser (rest : List Nat) :
    ∀ atoms : List (List Nat), (∀ b ∈ atoms, b.length < 2 ^ 64) →
      parseAtoms atoms.length (serAtoms atoms ++ rest) = .ok (atoms, rest) := by
  intro atoms
  induction atoms with
  | nil => intro _; rfl
  | cons b bs ih =>
      intro h
      rw [serAtoms, List.length_cons, parseAtoms]
      rw [List.append_assoc, List.append_assoc]
      rw [vli_roundtrip DErr.truncatedInput b.length (h b (by simp)) _]
      simp only []
      rw [if_pos (by simp)]
      rw [List.take_append_of_le_length (le_refl _), List.take_length]
      rw [List.drop_append_of_le_length (le_refl _), List.drop_length,
        List.nil_append]
      rw [ih fun y hy => h y (by simp [hy])]

lemma readVlis_ser (rest : List Nat) :
    ∀ rs : List Nat, (∀ x ∈ rs, x < 2 ^ 64) →
      readVlis rs.length (serRefs rs ++ rest) = .ok (rs, rest) := by
  intro rs
  induction rs with
  | nil => intro _; rfl
  | cons x xs ih =>
      intro h
      rw [serRefs, List.length_cons, readVlis, List.append_assoc]
      rw [vli_roundtrip DErr.truncatedInput x (h x (by simp)) _]
      simp only []
      rw [ih fun y hy => h y (by simp [hy])]

lemma parseNodes_ser (rest : List Nat) :
    ∀ nodes : List (List Nat),
      (∀ ns ∈ nodes, ns.length < 2 ^ 64 ∧ ∀ x ∈ ns, x < 2 ^ 64) →
      parseNodes nodes.length (serNodes nodes ++ rest) = .ok (nodes, rest) := by
  intro nodes
  induction nodes with
  | nil => intro _; rfl
  | cons ns nss ih =>
      intro h
      rw [serNodes, List.length_cons, parseNodes]
      rw [List.append_assoc, List.append_assoc]
      rw [vli_roundtrip DErr.truncatedInput ns.length (h ns (by simp)).1 _]
      simp only []
      rw [readVlis_ser _ ns fun x hx => (h ns (by simp)).2 x hx]
      simp only []
      rw [ih fun y hy => h y (by simp [hy])]

/-- All quantities the container VLI-encodes for `xs` fit in `u64`
(automatic for any input a Rust process can hold; explicit here because
the embedding uses unbounded `Nat`). -/
def boundsOk (xs : List BSExp) : Prop :=
  (encodeL xs ⟨[], []⟩).2.atoms.length < 2 ^ 64 ∧
  (serAtoms (encodeL xs ⟨[], []⟩).2.atoms).length < 2 ^ 64 ∧
  (∀ b ∈ (encodeL xs ⟨[], []⟩).2.atoms, b.length < 2 ^ 64) ∧
  (encodeL xs ⟨[], []⟩).1.length < 2 ^ 64 ∧
  (∀ r ∈ (encodeL xs ⟨[], []⟩).1, r < 2 ^ 64) ∧
  (encodeL xs ⟨[], []⟩).2.nodes.length < 2 ^ 64 ∧
  (serNodes (encodeL xs ⟨[], []⟩).2.nodes).length < 2 ^ 64 ∧
  (∀ ns ∈ (encodeL xs ⟨[], []⟩).2.nodes,
    ns.length < 2 ^ 64 ∧ ∀ x ∈ ns, x < 2 ^ 64)

instance (xs : List BSExp) : Decidable (boundsOk xs) := by
  unfold boundsOk
  infer_instance

/-- C1: decoding the pool-format buffer produced by encoding returns the
original sequence of expressions (structural equality), for every finite
sequence whose encoded counts and lengths fit in `u64`. -/
theorem bsefile_roundtrip (xs : List BSExp) (h : boundsOk xs) :
    from_bsefile (to_bsefile xs) = .ok xs := by
  rcases henc : encodeL xs ⟨[], []⟩ with ⟨roots, s⟩
  unfold boundsOk at h
  rw [henc] at h
  simp only [] at h
  obtain ⟨hb1, hb2, hb3, hb4, hb5, hb6, hb7, hb8⟩ := h
  obtain ⟨hA, hN, hnd, hin, hsem⟩ := poolListOk_all xs ⟨[], []⟩ roots s henc
  obtain ⟨hwS, hroS, hdS⟩ := hsem trivial
  rw [to_bsefile_eq xs roots s henc]
  rw [from_bsefile]
  simp only [List.append_assoc]
  rw [vli_roundtrip DErr.truncatedInput s.atoms.length hb1 _]
  simp only []
  rw [vli_roundtrip DErr.truncatedInput (serAtoms s.atoms).length hb2 _]
  simp only []
  rw [if_pos (by simp)]
  rw [List.take_append_of_le_length (le_refl _), List.take_length]
  rw [show serAtoms s.atoms = serAtoms s.atoms ++ [] from by simp] at hb2 ⊢
  rw [parseAtoms_ser [] s.atoms hb3]
  simp only []
  rw [List.drop_append_of_le_length (by simp), List.drop_length,
    List.nil_append]
  rw [vli_roundtrip DErr.truncatedInput roots.length hb4 _]
  simp only []
  rw [readVlis_ser _ roots hb5]
  simp only []
  rw [vli_roundtrip DErr.truncatedInput s.nodes.length hb6 _]
  simp only []
  rw [vli_roundtrip DErr.truncatedInput (serNodes s.nodes).length hb7 _]
  simp only []
  rw [if_pos (le_refl _)]
  rw [List.take_of_length_le (le_refl _)]
  rw [show serNodes s.nodes = serNodes s.nodes ++ [] from by simp]
  rw [parseNodes_ser [] s.nodes hb8]
  simp only []
  rw [matGo_ok s.atoms s.nodes [] hwS]
  simp only []
  rw [resolveList_ok s.atoms _ roots ?bounds]
  case bounds =>
    intro x hx
    refine ⟨(hroS x hx).1, fun h1 => ?_⟩
    rw [memoF_length]
    simpa using (hroS x hx).2 h1
  rw [show roots.map (resolveD s.atoms (memoF s.atoms [] s.nodes)) =
    roots.map (denoteRef s) from rfl]
  rw [hdS s (List.prefix_refl _) (List.prefix_refl _) hwS]

/-- Witness for C1 at a three-expression input with shared structure. -/
theorem bsefile_roundtrip_witness :
    boundsOk [BSExp.Atom [97], BSExp.List [.Atom [98], .Atom [97]],
      BSExp.List [.Atom [98], .Atom [97]]] ∧
    from_bsefile (to_bsefile [BSExp.Atom [97], BSExp.List [.Atom [98], .Atom [97]],
        BSExp.List [.Atom [98], .Atom [97]]]) =
      .ok [BSExp.Atom [97], BSExp.List [.Atom [98], .Atom [97]],
        BSExp.List [.Atom [98], .Atom [97]]] :=
  ⟨by decide, bsefile_roundtrip _ (by decide)⟩

lemma filter_len_one_of_nodup_mem {α : Type} [DecidableEq α] :
    ∀ (l : List α) (b : α), l.Nodup → b ∈ l →
      (l.filter (fun a => a = b)).length = 1 := by
  intro l
  induction l with
  | nil => intro b _ hm; cases hm
  | cons x xs ih =>
      intro b hn hm
      rw [List.filter_cons]
      by_cases hx : x = b
      · subst hx
        rw [if_pos (by simp)]
        have hnin : x ∉ xs := (List.nodup_cons.mp hn).1
        have hfe : xs.filter (fun a => a = x) = [] := by
          rw [List.filter_eq_nil_iff]
          intro a ha
          simp only [decide_eq_true_eq]
          intro hax
          exact hnin (hax ▸ ha)
        rw [hfe]
        rfl
      · rw [if_neg (by simpa using hx)]
        have hm' : b ∈ xs := by
          rcases List.mem_cons.mp hm with h | h
          · exact absurd h.symm hx
          · exact h
        exact ih b (List.nodup_cons.mp hn).2 hm'

lemma idxOf_mem {α : Type} [DecidableEq α] (b : α) :
    ∀ l : List α, b ∈ l → ∃ i, idxOf b l = some i := by
  intro l
  induction l with
  | nil => intro h; cases h
  | cons x xs ih =>
      intro h
      by_cases hx : x = b
      · exact ⟨0, by rw [idxOf, if_pos hx]⟩
      · have hm : b ∈ xs := by
          rcases List.mem_cons.mp h with h | h
          · exact absurd h.symm hx
          · exact h
        obtain ⟨i, hi⟩ := ih hm
        exact ⟨i + 1, by rw [idxOf, if_neg hx, hi]; rfl⟩

lemma idxOf_of_not_mem {α : Type} [DecidableEq α] (b : α) (l : List α)
    (h : b ∉ l) : idxOf b l = none := by
  cases hi : idxOf b l with
  | none => rfl
  | some i =>
      obtain ⟨hilt, hget⟩ := idxOf_some b b l i hi
      exact absurd (hget ▸ getD_mem l i b hilt) h

/-- C8: interning a byte string already present in the Atom Table
returns its existing index and leaves the state unchanged; interning a
new byte string appends it with index equal to its first-seen order;
consequently any atom content occurring in the input yields exactly one
Atom Table entry. -/
theorem atom_table_dedup :
    (∀ (b : List Nat) (s : EncSt), b ∈ s.atoms →
        ∃ i, internAtom b s = (i, s) ∧ i < s.atoms.length ∧
          s.atoms.getD i [] = b) ∧
    (∀ (b : List Nat) (s : EncSt), b ∉ s.atoms →
        internAtom b s = (s.atoms.length, ⟨s.atoms ++ [b], s.nodes⟩)) ∧
    (∀ (xs : List BSExp) (b : List Nat), atomInL b xs = true →
        ((encodeL xs ⟨[], []⟩).2.atoms.filter (fun a => a = b)).length = 1) := by
  refine ⟨?_, ?_, ?_⟩
  · intro b s hb
    obtain ⟨i, hi⟩ := idxOf_mem b s.atoms hb
    obtain ⟨hilt, hget⟩ := idxOf_some b [] s.atoms i hi
    exact ⟨i, by rw [internAtom, hi], hilt, hget⟩
  · intro b s hb
    rw [internAtom, idxOf_of_not_mem b s.atoms hb]
  · intro xs b hb
    rcases henc : encodeL xs ⟨[], []⟩ with ⟨roots, s⟩
    obtain ⟨hA, hN, hnd, hin, _⟩ := poolListOk_all xs ⟨[], []⟩ roots s henc
    show (s.atoms.filter (fun a => a = b)).length = 1
    have hnodup : s.atoms.Nodup := hnd (List.nodup_nil)
    have hmem : b ∈ s.atoms := hin b hb
    exact filter_len_one_of_nodup_mem s.atoms b hnodup hmem

/-- Witness for C8: a duplicated atom in the input yields one entry. -/
theorem atom_table_dedup_witness :
    ([7] : List Nat) ∈ (⟨[[7]], []⟩ : EncSt).atoms ∧
    internAtom [7] ⟨[[7]], []⟩ = (0, ⟨[[7]], []⟩) ∧
    atomInL [5] [BSExp.List [.Atom [5], .Atom [5]]] = true ∧
    ((encodeL [BSExp.List [.Atom [5], .Atom [5]]] ⟨[], []⟩).2.atoms.filter
      (fun a => a = [5])).length = 1 := by
  refine ⟨by decide, by decide, by decide,
    atom_table_dedup.2.2 [BSExp.List [.Atom [5], .Atom [5]]] [5] (by decide)⟩
